import Mathlib

/-!
Verification development for `convert_gene_trees_to_species_trees_py.py`.

The script has three parts that the claims are about:
  * `parse_mapping_file` — parses an ASTRAL mapping file (`species:gene1,gene2,...`)
    into a gene → species dictionary, collecting warnings;
  * `process_tree_content` — rewrites gene leaf names to species names inside
    Newick tree text, using one `re.sub` pass per species, with a mode flag
    (`is_bootstrap_file`) that selects the regex shape;
  * `main` — the batch coordinator (primary file first, then bootstrap files).

We embed the content-level logic shallowly: files become lists of lines or a
string of characters, Python dicts become insertion-ordered association lists
with unique keys, and the two regular expressions
  primary:   `(?:g1|g2|...)(?=:)`
  bootstrap: `\b(?:g1|g2|...)\b(?=[,):]|$)`
become an explicit left-to-right scanner (`re.sub` semantics: scan the original
text left to right, at each position try the alternatives in the given order —
the script sorts them by decreasing length — and check the zero-width
assertions; on a match emit the replacement and resume after the matched span,
on an empty match emit the replacement and advance one character).

Python's `\w` (with Unicode text) and `str.strip()` are modelled on their ASCII
core, which is exact for the ASCII identifiers and whitespace these files use.
`re.escape` makes every gene name a literal, so in the model gene names are
matched literally and no escaping is needed.
-/

namespace GeneTree

/-- Model of the regex word-character class `\w` (ASCII core): letters, digits,
underscore. -/
def isWordChar (c : Char) : Bool := c.isAlphanum || c == '_'

/-- Is the (optional) character a word character?  `none` stands for "outside
the string" (before the start or after the end), which is never a word char. -/
def wordOpt : Option Char → Bool
  | none => false
  | some c => isWordChar c

/-- The word-boundary assertion `\b` between an optional previous character and
an optional current character: exactly one side is a word character. -/
def boundary (prev next : Option Char) : Bool := wordOpt prev != wordOpt next

/-- Lookahead of the primary pattern `(?=:)`: the next character must be `:`. -/
def lookP (c : Option Char) : Bool := c == some ':'

/-- Lookahead of the bootstrap pattern `(?=[,):]|$)`: next character is `,`,
`)`, `:`, or we are at the end of the input. -/
def lookB : Option Char → Bool
  | none => true
  | some c => c == ',' || c == ')' || c == ':'

/-- The character just before the position right after a candidate match `g`
starting at the current position: the last character of `g`, or (for an empty
match) the character before the current position. -/
def rightPrev (prev : Option Char) (g : List Char) : Option Char :=
  match g.getLast? with
  | none => prev
  | some c => some c

/-- Try to match the primary pattern `(?:g1|...|gn)(?=:)` at the start of
`rest`: the first alternative (in list order) that is a literal prefix of
`rest` and is followed by `:`.  Returns the matched alternative. -/
def tryMatchP (genes : List (List Char)) (rest : List Char) : Option (List Char) :=
  genes.find? (fun g => g.isPrefixOf rest && lookP ((rest.drop g.length).head?))

/-- Try to match the bootstrap pattern `\b(?:g1|...|gn)\b(?=[,):]|$)` at the
start of `rest`, where `prev` is the character preceding this position in the
original text.  The leading `\b` depends only on the position; the trailing
`\b` and the lookahead are checked after each candidate alternative. -/
def tryMatchB (genes : List (List Char)) (prev : Option Char) (rest : List Char) :
    Option (List Char) :=
  if boundary prev rest.head? then
    genes.find? (fun g => g.isPrefixOf rest
      && boundary (rightPrev prev g) ((rest.drop g.length).head?)
      && lookB ((rest.drop g.length).head?))
  else none

/-- One `re.sub` pass with the primary pattern, as a left-to-right scanner.
`fuel` bounds the recursion; `subP` below supplies `rest.length`, which is
always sufficient (each step consumes at least one character). -/
def subPGo (genes : List (List Char)) (repl : List Char) : Nat → List Char → List Char
  | _, [] => []
  | 0, rest => rest
  | fuel + 1, c :: cs =>
    match tryMatchP genes (c :: cs) with
    | some [] => repl ++ c :: subPGo genes repl fuel cs
    | some (d :: ds) => repl ++ subPGo genes repl fuel ((c :: cs).drop (d :: ds).length)
    | none => c :: subPGo genes repl fuel cs

/-- `re.sub(r"(?:alt)(?=:)", repl, text)` on character lists. -/
def subP (genes : List (List Char)) (repl : List Char) (text : List Char) : List Char :=
  subPGo genes repl text.length text

/-- One `re.sub` pass with the bootstrap pattern, as a left-to-right scanner
carrying the previous original-text character (for `\b`). -/
def subBGo (genes : List (List Char)) (repl : List Char) :
    Nat → Option Char → List Char → List Char
  | _, prev, [] => if (tryMatchB genes prev []).isSome then repl else []
  | 0, _, rest => rest
  | fuel + 1, prev, c :: cs =>
    match tryMatchB genes prev (c :: cs) with
    | some [] => repl ++ c :: subBGo genes repl fuel (some c) cs
    | some (d :: ds) =>
      repl ++ subBGo genes repl fuel (some ((d :: ds).getLast (by simp)))
        ((c :: cs).drop (d :: ds).length)
    | none => c :: subBGo genes repl fuel (some c) cs

/-- `re.sub(r"\b(?:alt)\b(?=[,):]|$)", repl, text)` on character lists. -/
def subB (genes : List (List Char)) (repl : List Char) (text : List Char) : List Char :=
  subBGo genes repl text.length none text

/-- Stable insertion of a string into a list sorted by decreasing length;
models the placement performed by Python's stable `sorted(key=len, reverse=True)`. -/
def insertLenDesc (x : String) : List String → List String
  | [] => [x]
  | y :: t => if y.length ≤ x.length then x :: y :: t else y :: insertLenDesc x t

/-- `sorted(gene_names_list, key=len, reverse=True)`: stable sort by
decreasing length. -/
def sortLenDesc : List String → List String
  | [] => []
  | x :: t => insertLenDesc x (sortLenDesc t)

/-- Step of building `species_to_genes_map`: append gene `p.1` to the group of
species `p.2`, creating the group at the end on first sight (Python dict
insertion order). -/
def s2gStep (acc : List (String × List String)) (p : String × String) :
    List (String × List String) :=
  if acc.any (fun q => q.1 == p.2) then
    acc.map (fun q => if q.1 == p.2 then (q.1, q.2 ++ [p.1]) else q)
  else acc ++ [(p.2, [p.1])]

/-- `species_to_genes_map` built from the gene → species dict items in
insertion order (lines 77–81 of the script). -/
def buildS2G (m : List (String × String)) : List (String × List String) :=
  m.foldl s2gStep []

/-- One species' substitution pass (the body of the loop at lines 84–103):
sort that species' gene names by decreasing length and perform a single
`re.sub` with the mode-selected pattern. -/
def applyPass (is_bootstrap_file : Bool) (content : String) (species : String)
    (genes : List String) : String :=
  let sorted := (sortLenDesc genes).map String.data
  if is_bootstrap_file then ⟨subB sorted species.data content.data⟩
  else ⟨subP sorted species.data content.data⟩

/-- The species loop of `process_tree_content`: fold the per-species passes
over the content, skipping species with an empty gene list. -/
def runPasses (is_bootstrap_file : Bool) (passes : List (String × List String))
    (content : String) : String :=
  passes.foldl
    (fun c p => if p.2.isEmpty then c else applyPass is_bootstrap_file c p.1 p.2) content

/-- `process_tree_content(tree_content, gene_to_species_map, is_bootstrap_file)`
(lines 65–105).  The gene → species dict is an insertion-ordered association
list with unique keys. -/
def process_tree_content (tree_content : String) (gene_to_species_map : List (String × String))
    (is_bootstrap_file : Bool) : String :=
  if gene_to_species_map.isEmpty then tree_content
  else runPasses is_bootstrap_file (buildS2G gene_to_species_map) tree_content

/-! ### The mapping-file parser (`parse_mapping_file`, lines 10–62)

The file is modelled as its list of lines; the returned Python dict is an
insertion-ordered association list with unique keys.  The script prints
malformed-line and empty-species warnings immediately while scanning and
collects duplicate-mapping warnings in `duplicate_map_warnings`, printing them
only after the whole file has been read; we keep the two streams separate so
the emitted order can be stated exactly. -/

/-- `str.strip()` (ASCII whitespace core). -/
def stripChars (l : List Char) : List Char :=
  ((l.dropWhile Char.isWhitespace).reverse.dropWhile Char.isWhitespace).reverse

/-- `str.strip()` on strings. -/
def pyStrip (s : String) : String := ⟨stripChars s.data⟩

/-- `line.split(':', 1)`: split at the first colon, if any. -/
def splitFirstColon : List Char → Option (List Char × List Char)
  | [] => none
  | c :: t =>
    if c == ':' then some ([], t)
    else (splitFirstColon t).map (fun p => (c :: p.1, p.2))

/-- `str.split(',')`: split on every comma, keeping empty pieces. -/
def splitCommas : List Char → List (List Char)
  | [] => [[]]
  | c :: t =>
    if c == ',' then [] :: splitCommas t
    else
      match splitCommas t with
      | [] => [[c]]
      | h :: r => (c :: h) :: r

/-- A warning printed to stderr by `parse_mapping_file`. -/
inductive Warning where
  | malformedLine (lineNum : Nat) (raw : String)
  | emptySpeciesName (lineNum : Nat) (raw : String)
  | duplicateGeneMapping (gene prevSpecies newSpecies : String) (lineNum : Nat)
deriving DecidableEq, Repr

/-- The line number a warning talks about. -/
def Warning.lineOf : Warning → Nat
  | .malformedLine n _ => n
  | .emptySpeciesName n _ => n
  | .duplicateGeneMapping _ _ _ n => n

/-- Outcome of parsing one line of the mapping file (lines 22–41). -/
inductive LineResult where
  | skip
  | malformed
  | emptySpecies
  | entry (species : String) (genes : List String)
deriving DecidableEq, Repr

/-- Parse a single raw line: strip it, skip blanks and `#` comments, split at
the first colon (missing colon is malformed), strip the species name (empty is
a warning), accept a species with an empty gene list silently, and otherwise
split the gene list on commas, stripping each token and discarding empties. -/
def parseLine (raw : String) : LineResult :=
  let line := pyStrip raw
  if line.data.isEmpty || line.data.head? == some '#' then .skip
  else
    match splitFirstColon line.data with
    | none => .malformed
    | some (sp, gl) =>
      let species : String := ⟨stripChars sp⟩
      let genesStr : List Char := stripChars gl
      if species.data.isEmpty then .emptySpecies
      else if genesStr.isEmpty then .skip
      else .entry species
        (((splitCommas genesStr).map (fun g => (⟨stripChars g⟩ : String))).filter
          (fun g => !g.data.isEmpty))

/-- Python dict lookup `d[g]` / `g in d` on the association-list model. -/
def dictFind (d : List (String × String)) (k : String) : Option String :=
  (d.find? (fun p => p.1 == k)).map (fun p => p.2)

/-- Python dict assignment `d[k] = v`: update in place if the key exists
(keeping its position), otherwise append. -/
def dictInsert (d : List (String × String)) (k v : String) : List (String × String) :=
  if (d.find? (fun p => p.1 == k)).isSome then
    d.map (fun p => if p.1 == k then (k, v) else p)
  else d ++ [(k, v)]

/-- State threaded through `parse_mapping_file`: the dict under construction,
the warnings already printed to stderr (malformed line / empty species name),
and the collected `duplicate_map_warnings`. -/
structure ParseState where
  map : List (String × String)
  imm : List Warning
  dups : List Warning
deriving DecidableEq, Repr

/-- Lines 43–48: process one gene of an accepted line — record a duplicate
warning when the gene is already mapped to a different species, then
(re)assign it to the current species. -/
def processGene (lineNum : Nat) (species : String) (st : ParseState) (g : String) :
    ParseState :=
  let dups :=
    match dictFind st.map g with
    | some prev => if prev ≠ species then
        st.dups ++ [Warning.duplicateGeneMapping g prev species lineNum]
      else st.dups
    | none => st.dups
  { st with map := dictInsert st.map g species, dups := dups }

/-- Process one (1-based line number, raw line) pair. -/
def processLine (st : ParseState) (ln : Nat × String) : ParseState :=
  match parseLine ln.2 with
  | .skip => st
  | .malformed => { st with imm := st.imm ++ [Warning.malformedLine ln.1 (pyStrip ln.2)] }
  | .emptySpecies =>
    { st with imm := st.imm ++ [Warning.emptySpeciesName ln.1 (pyStrip ln.2)] }
  | .entry species genes => genes.foldl (processGene ln.1 species) st

/-- `enumerate(f_map, 1)`: pair each line with its 1-based line number. -/
def enumFrom (n : Nat) : List String → List (Nat × String)
  | [] => []
  | l :: t => (n, l) :: enumFrom (n + 1) t

/-- `parse_mapping_file` on the file's list of lines (the I/O shell —
opening the file and `sys.exit` on unreadable files — is outside the content
model; on any readable file the function always returns). -/
def parse_mapping_file (lines : List String) : ParseState :=
  (enumFrom 1 lines).foldl processLine ⟨[], [], []⟩

/-- The warning sequence actually emitted on stderr for the three per-line
warning kinds: immediate warnings in scan order, then the collected duplicate
warnings (printed by the loop at lines 50–51 after the whole file is read). -/
def emittedWarnings (lines : List String) : List Warning :=
  (parse_mapping_file lines).imm ++ (parse_mapping_file lines).dups

/-- The flat sequence of `(line number, gene, species)` assignments the parser
performs, in file order. -/
def lineAssignments (ln : Nat × String) : List (Nat × String × String) :=
  match parseLine ln.2 with
  | .entry species genes => genes.map (fun g => (ln.1, g, species))
  | _ => []

/-- All assignments of the whole file, in file order. -/
def assignments (lines : List String) : List (Nat × String × String) :=
  ((enumFrom 1 lines).map lineAssignments).flatten

/-- The dict obtained by replaying a list of assignments. -/
def mapOfAssignments (asg : List (Nat × String × String)) : List (String × String) :=
  asg.foldl (fun d a => dictInsert d a.2.1 a.2.2) []

/-- One assignment step on the (dict, duplicate warnings) pair — exactly what
lines 43–48 do for one gene. -/
def mdStep (st : List (String × String) × List Warning) (a : Nat × String × String) :
    List (String × String) × List Warning :=
  (dictInsert st.1 a.2.1 a.2.2,
    match dictFind st.1 a.2.1 with
    | some prev =>
      if prev ≠ a.2.2 then st.2 ++ [Warning.duplicateGeneMapping a.2.1 prev a.2.2 a.1]
      else st.2
    | none => st.2)

/-- Replay a list of assignments on the (dict, duplicate warnings) pair. -/
def replayMD (init : List (String × String) × List Warning)
    (asg : List (Nat × String × String)) : List (String × String) × List Warning :=
  asg.foldl mdStep init

/-! ### The batch coordinator (`main`, lines 230–275)

`main` is dominated by I/O; the claims about it concern only its control flow,
which we model as the trace of externally visible processing events, with the
file system abstracted into the outcomes it determines: `primaryOk` is the
result of `process_single_tree_file` on the primary tree file, and `auxFiles`
pairs each path listed in the bootstrap list file with whether
`os.path.isfile` accepts it. -/

/-- An externally visible step of `main` after the mapping table is built. -/
inductive CoordEvent where
  | primaryAttempt
  | fatalExit (code : Nat)
  | auxSkipped (path : String)
  | auxAttempt (path : String)
deriving DecidableEq, Repr

/-- Control-flow trace of `main` lines 230–275: the primary file is always
processed first; if that fails the script exits with status 1 and nothing else
happens; otherwise the bootstrap list is read, missing files are skipped with
a warning, and the surviving files are dispatched to the worker pool. -/
def coordinatorTrace (primaryOk : Bool) (auxFiles : List (String × Bool)) :
    List CoordEvent :=
  CoordEvent.primaryAttempt ::
    (if primaryOk then
      (auxFiles.filter (fun pf => !pf.2)).map (fun pf => CoordEvent.auxSkipped pf.1) ++
        (auxFiles.filter (fun pf => pf.2)).map (fun pf => CoordEvent.auxAttempt pf.1)
    else [CoordEvent.fatalExit 1])

/-! ### Token view of bootstrap-mode substitution

The bootstrap pattern `\b(?:alt)\b(?=[,):]|$)` with word-character-only gene
names can only ever replace a whole maximal run of word characters.  To reason
about such passes we decompose a text into tokens (maximal word runs and
single non-word characters) and characterise one bootstrap pass as a token-wise
rewrite.  These definitions are analysis tools, not part of the script. -/

/-- A token of the text: a maximal run of word characters, or one single
non-word character. -/
inductive Tok where
  | word (w : List Char)
  | delim (c : Char)
deriving DecidableEq, Repr

/-- Flatten a token list back into text. -/
def detok : List Tok → List Char
  | [] => []
  | Tok.word w :: t => w ++ detok t
  | Tok.delim c :: t => c :: detok t

/-- Well-formedness of one token: word runs are nonempty and all word
characters, delimiters are non-word characters. -/
def wfTok : Tok → Bool
  | Tok.word w => !w.isEmpty && w.all isWordChar
  | Tok.delim c => !isWordChar c

/-- The token list does not begin with a word run. -/
def headNotWord : List Tok → Bool
  | Tok.word _ :: _ => false
  | _ => true

/-- No two adjacent word runs (word runs are maximal). -/
def noAdjWords : List Tok → Bool
  | [] => true
  | Tok.word _ :: t => headNotWord t && noAdjWords t
  | Tok.delim _ :: t => noAdjWords t

/-- Tokenizer worker, fuelled by the text length. -/
def tokGo : Nat → List Char → List Tok
  | _, [] => []
  | 0, rest => [Tok.word rest]
  | fuel + 1, c :: cs =>
    if isWordChar c then
      Tok.word (c :: cs.takeWhile isWordChar) :: tokGo fuel (cs.dropWhile isWordChar)
    else Tok.delim c :: tokGo fuel cs

/-- Split a text into maximal word runs and single non-word characters. -/
def tokenize (s : List Char) : List Tok := tokGo s.length s

/-- Does the character after a word run allow a bootstrap replacement?  This is
the lookahead `(?=[,):]|$)` read off the following token. -/
def nextOkTok : List Tok → Bool
  | [] => true
  | Tok.delim c :: _ => c == ',' || c == ')' || c == ':'
  | Tok.word _ :: _ => false

/-- One bootstrap pass on the token view: a word run equal to one of the gene
names and followed by `,`, `)`, `:` or the end of the text becomes the
replacement; everything else is kept. -/
def tokRw (genes : List (List Char)) (repl : List Char) : List Tok → List Tok
  | [] => []
  | Tok.word w :: t =>
    (if genes.contains w && nextOkTok t then Tok.word repl else Tok.word w) ::
      tokRw genes repl t
  | Tok.delim c :: t => Tok.delim c :: tokRw genes repl t

end GeneTree

namespace GeneTree

/-! ## Claim theorems (with supporting lemmas) -/

/-- C7: the Leaf Rewriter is a pure total function (it is a Lean `def`, so it
always returns), and with an empty mapping table it returns the input text
unchanged, in both context modes. -/
theorem c7_empty_map_identity (text : String) (mode : Bool) :
    process_tree_content text [] mode = text := rfl

/-- C5: with the mapping table `{"A"->"S1", "AB"->"S2"}` (in either dict
insertion order), the input `"AB:0.1"` rewrites in PRIMARY mode to exactly
`"S2:0.1"` — the longer candidate wins, never producing `"S1B:0.1"`. -/
theorem c5_longest_match :
    process_tree_content "AB:0.1" [("A", "S1"), ("AB", "S2")] false = "S2:0.1"
    ∧ process_tree_content "AB:0.1" [("AB", "S2"), ("A", "S1")] false = "S2:0.1" := by
  decide

/-- C1 (counterexample): species passes do not commute for every mapping table
in which each gene is mapped to exactly one species.  With the table
`{"A"->"B", "B"->"C"}` (each gene mapped to exactly one species) the species
iteration order `B` then `C` turns `"A:"` into `"C:"`, while the order `C`
then `B` yields `"B:"`.  A second pair shows PRIMARY-mode passes stay
order-dependent even when all gene and species names are word characters and
no species name is a gene name (`{"aY"->"Z", "c"->"Y"}` on `"ac:"`). -/
theorem c1_order_independence_cex :
    ([(("A" : String), ("B" : String)), ("B", "C")]).Perm [("B", "C"), ("A", "B")]
    ∧ process_tree_content "A:" [("A", "B"), ("B", "C")] false
        ≠ process_tree_content "A:" [("B", "C"), ("A", "B")] false
    ∧ process_tree_content "ac:" [("aY", "Z"), ("c", "Y")] false
        ≠ process_tree_content "ac:" [("c", "Y"), ("aY", "Z")] false := by
  refine ⟨List.Perm.swap _ _ _, ?_, ?_⟩ <;> decide

/-- C3 (counterexample): the claim fails in PRIMARY mode — the primary pattern
has no left word boundary, so the gene `"BC"` is replaced inside the longer
token `"ABC"` when it stands immediately before `":"`: `"ABC:1"` becomes
`"AS:1"` under `{"BC"->"S"}`. -/
theorem c3_substring_cex :
    process_tree_content "ABC:1" [("BC", "S")] false = "AS:1"
    ∧ process_tree_content "ABC:1" [("BC", "S")] false ≠ "ABC:1" := by
  decide

/-- C9 (counterexample): the emitted warning sequence is not in line-encountered
order.  For the file `["S1:g", "S2:g", "bad"]` the malformed-line warning of
line 3 is printed during the scan, while the duplicate warning of line 2 is
only printed after the whole file is read, so a warning from a later line
precedes one from an earlier line. -/
theorem c9_warning_order_cex :
    emittedWarnings ["S1:g", "S2:g", "bad"] =
      [Warning.malformedLine 3 "bad", Warning.duplicateGeneMapping "g" "S1" "S2" 2]
    ∧ ¬ List.Pairwise (fun a b => a.lineOf ≤ b.lineOf)
        (emittedWarnings ["S1:g", "S2:g", "bad"]) := by
  decide

/-- C8: the coordinator control flow — if the primary rewrite fails, the trace
is exactly the primary attempt followed by the fatal exit, no auxiliary file
is attempted, and in every run an auxiliary attempt implies the primary
rewrite succeeded (and the primary attempt is always the first event). -/
theorem c8_primary_failure_fatal (auxFiles : List (String × Bool)) :
    coordinatorTrace false auxFiles = [CoordEvent.primaryAttempt, CoordEvent.fatalExit 1]
    ∧ (∀ p, CoordEvent.auxAttempt p ∉ coordinatorTrace false auxFiles)
    ∧ (∀ (primaryOk : Bool) (p : String),
        CoordEvent.auxAttempt p ∈ coordinatorTrace primaryOk auxFiles → primaryOk = true)
    ∧ ∀ (primaryOk : Bool),
        (coordinatorTrace primaryOk auxFiles).head? = some CoordEvent.primaryAttempt := by
  refine ⟨rfl, ?_, ?_, fun _ => rfl⟩
  · intro p hp
    simp [coordinatorTrace] at hp
  · intro primaryOk p hp
    cases primaryOk with
    | true => rfl
    | false => simp [coordinatorTrace] at hp

/-! ### Identity of primary-mode passes without matchable occurrences -/

theorem lookP_iff (x : Option Char) : lookP x = true ↔ x = some ':' := by
  unfold lookP
  exact beq_iff_eq ..

theorem tryMatchP_none_of (genes : List (List Char)) (rest : List Char)
    (h : ∀ g ∈ genes, ¬(g.isPrefixOf rest ∧ ((rest.drop g.length).head? = some ':'))) :
    tryMatchP genes rest = none := by
  apply List.find?_eq_none.mpr
  intro g hg hcontra
  rw [Bool.and_eq_true, lookP_iff] at hcontra
  exact h g hg ⟨hcontra.1, hcontra.2⟩

theorem subPGo_id (genes : List (List Char)) (repl : List Char) :
    ∀ (fuel : Nat) (text : List Char), text.length ≤ fuel →
      (∀ i, tryMatchP genes (text.drop i) = none) →
      subPGo genes repl fuel text = text := by
  intro fuel
  induction fuel with
  | zero =>
    intro text hlen _
    have : text = [] := List.eq_nil_of_length_eq_zero (Nat.le_zero.mp hlen)
    subst this
    rfl
  | succ n ih =>
    intro text hlen hnone
    cases text with
    | nil => rfl
    | cons c cs =>
      have h0 : tryMatchP genes (c :: cs) = none := hnone 0
      have hrec : ∀ i, tryMatchP genes (cs.drop i) = none := fun i => hnone (i + 1)
      have hlen' : cs.length ≤ n := by simpa using hlen
      show subPGo genes repl (n + 1) (c :: cs) = c :: cs
      unfold subPGo
      rw [h0]
      exact congrArg (c :: ·) (ih cs hlen' hrec)

theorem subP_id (genes : List (List Char)) (repl : List Char) (text : List Char)
    (h : ∀ i, tryMatchP genes (text.drop i) = none) :
    subP genes repl text = text :=
  subPGo_id genes repl text.length text le_rfl h

theorem mem_insertLenDesc (x y : String) (l : List String) :
    y ∈ insertLenDesc x l ↔ y = x ∨ y ∈ l := by
  induction l with
  | nil => simp [insertLenDesc]
  | cons z t ih =>
    unfold insertLenDesc
    by_cases hc : z.length ≤ x.length
    · simp [hc]
    · simp only [if_neg hc, List.mem_cons, ih]
      tauto

theorem mem_sortLenDesc (y : String) (l : List String) :
    y ∈ sortLenDesc l ↔ y ∈ l := by
  induction l with
  | nil => simp [sortLenDesc]
  | cons x t ih => simp [sortLenDesc, mem_insertLenDesc, ih]

/-- A primary-mode pass whose gene names never occur before a `:` in the
content leaves the content unchanged. -/
theorem applyPass_primary_id (content sp : String) (genes : List String)
    (h : ∀ g ∈ genes, ∀ i, ¬(g.data.isPrefixOf (content.data.drop i) ∧
      (((content.data.drop i).drop g.data.length).head? = some ':'))) :
    applyPass false content sp genes = content := by
  show (⟨subP ((sortLenDesc genes).map String.data) sp.data content.data⟩ : String) = content
  rw [subP_id]
  intro i
  apply tryMatchP_none_of
  intro gd hgd
  obtain ⟨g, hg, rfl⟩ := List.mem_map.mp hgd
  exact h g ((mem_sortLenDesc g genes).mp hg) i

theorem runPasses_primary_id (passes : List (String × List String)) (content : String)
    (h : ∀ p ∈ passes, ∀ g ∈ p.2, ∀ i, ¬(g.data.isPrefixOf (content.data.drop i) ∧
      (((content.data.drop i).drop g.data.length).head? = some ':'))) :
    runPasses false passes content = content := by
  induction passes with
  | nil => rfl
  | cons p ps ih =>
    show List.foldl _ _ (p :: ps) = content
    rw [List.foldl_cons]
    have hstep : (if p.2.isEmpty then content else applyPass false content p.1 p.2) = content := by
      by_cases hc : p.2.isEmpty
      · rw [if_pos hc]
      · rw [if_neg hc]
        exact applyPass_primary_id content p.1 p.2 (h p (List.mem_cons_self p ps))
    rw [hstep]
    exact ih (fun q hq => h q (List.mem_cons_of_mem p hq))

/-- Genes recorded in `species_to_genes_map` all come from corresponding
entries of the gene → species dict. -/
theorem s2g_foldl_invariant (P : String → String → Prop) :
    ∀ (l : List (String × String)) (acc : List (String × List String)),
      (∀ p ∈ acc, ∀ g ∈ p.2, P g p.1) → (∀ q ∈ l, P q.1 q.2) →
      ∀ p ∈ l.foldl s2gStep acc, ∀ g ∈ p.2, P g p.1 := by
  intro l
  induction l with
  | nil => intro acc hacc _ p hp; exact hacc p hp
  | cons q t ih =>
    intro acc hacc hl p hp
    refine ih (s2gStep acc q) ?_ (fun r hr => hl r (List.mem_cons_of_mem _ hr)) p hp
    intro r hr g hg
    unfold s2gStep at hr
    by_cases hc : acc.any (fun t => t.1 == q.2)
    · rw [if_pos hc] at hr
      obtain ⟨u, hu, rfl⟩ := List.mem_map.mp hr
      by_cases he : u.1 == q.2
      · rw [if_pos he] at hg ⊢
        rcases List.mem_append.mp hg with hg1 | hg2
        · exact hacc u hu g hg1
        · have : g = q.1 := by simpa using hg2
          subst this
          have : u.1 = q.2 := eq_of_beq he
          rw [this]
          exact hl q (List.mem_cons_self q t)
      · rw [if_neg he] at hg ⊢
        exact hacc u hu g hg
    · rw [if_neg hc] at hr
      rcases List.mem_append.mp hr with hr1 | hr2
      · exact hacc r hr1 g hg
      · have : r = (q.2, [q.1]) := by simpa using hr2
        subst this
        have : g = q.1 := by simpa using hg
        subst this
        exact hl q (List.mem_cons_self q t)

theorem buildS2G_genes_mem (m : List (String × String)) :
    ∀ p ∈ buildS2G m, ∀ g ∈ p.2, (g, p.1) ∈ m :=
  s2g_foldl_invariant (fun g s => (g, s) ∈ m) m [] (by simp) (fun q hq => hq)

/-- A PRIMARY-mode rewrite in which no gene of the table occurs immediately
before a `:` leaves the text unchanged. -/
theorem process_primary_id (m : List (String × String)) (text : String)
    (h : ∀ g ∈ m.map Prod.fst, ∀ i, ¬(g.data.isPrefixOf (text.data.drop i) ∧
      (((text.data.drop i).drop g.data.length).head? = some ':'))) :
    process_tree_content text m false = text := by
  unfold process_tree_content
  by_cases hc : m.isEmpty
  · rw [if_pos hc]
  · rw [if_neg hc]
    apply runPasses_primary_id
    intro p hp g hg
    exact h g (List.mem_map.mpr ⟨(g, p.1), buildS2G_genes_mem m p hp g hg, rfl⟩)

/-- Absence of occurrences at every position up to the text's length extends
to every position (beyond the end every suffix is `[]`, the suffix at the
length itself). -/
theorem not_prefix_extend (g text : List Char)
    (h : ∀ i ≤ text.length, ¬ g.isPrefixOf (text.drop i)) :
    ∀ i, ¬ g.isPrefixOf (text.drop i) := by
  intro i
  by_cases hc : i ≤ text.length
  · exact h i hc
  · have hnil : text.drop i = [] := List.drop_eq_nil_of_le (Nat.le_of_lt (Nat.not_le.mp hc))
    rw [hnil]
    have h2 := h text.length Nat.le.refl
    rwa [List.drop_length] at h2

/-- C6: PRIMARY-mode rewriting is idempotent on texts in which every gene name
has already been replaced (no gene name of the table occurs in the text any
more) by species names that are not themselves keys of the table. -/
theorem c6_primary_idempotent (m : List (String × String)) (text : String)
    (hgene : ∀ g ∈ m.map Prod.fst, ∀ i ≤ text.data.length,
      ¬ g.data.isPrefixOf (text.data.drop i))
    (_hspec : ∀ s ∈ m.map Prod.snd, s ∉ m.map Prod.fst) :
    process_tree_content (process_tree_content text m false) m false
      = process_tree_content text m false := by
  have hid : process_tree_content text m false = text :=
    process_primary_id m text
      (fun g hg i hcontra => not_prefix_extend g.data text.data (hgene g hg) i hcontra.1)
  rw [hid]
  exact hid

/-- C6 witness: the table `{"G" -> "S"}` and the text `"S:0.1"`, in which the
gene `G` no longer occurs and the species `S` is not a key. -/
theorem c6_primary_idempotent_witness :
    process_tree_content (process_tree_content "S:0.1" [("G", "S")] false) [("G", "S")] false
      = process_tree_content "S:0.1" [("G", "S")] false :=
  c6_primary_idempotent [("G", "S")] "S:0.1" (by decide) (by decide)

/-! ### Tokenizer correctness -/

theorem length_dropWhile_le (p : Char → Bool) (l : List Char) :
    (l.dropWhile p).length ≤ l.length :=
  (List.dropWhile_sublist (l := l) p).length_le

theorem dropWhile_head_false (p : Char → Bool) :
    ∀ (l : List Char) (x : Char) (xs : List Char), l.dropWhile p = x :: xs → p x = false := by
  intro l
  induction l with
  | nil => intro x xs h; simp [List.dropWhile] at h
  | cons c t ih =>
    intro x xs h
    rw [List.dropWhile_cons] at h
    by_cases hc : p c
    · rw [if_pos hc] at h
      exact ih x xs h
    · rw [if_neg hc] at h
      cases h
      simpa using hc

theorem wordOpt_head_dropWhile (cs : List Char) :
    wordOpt ((cs.dropWhile isWordChar).head?) = false := by
  cases hd : cs.dropWhile isWordChar with
  | nil => rfl
  | cons x xs =>
    show wordOpt (some x) = false
    exact dropWhile_head_false isWordChar cs x xs hd

theorem detok_tokGo : ∀ (fuel : Nat) (s : List Char), s.length ≤ fuel →
    detok (tokGo fuel s) = s := by
  intro fuel
  induction fuel with
  | zero =>
    intro s h
    have : s = [] := List.eq_nil_of_length_eq_zero (Nat.le_zero.mp h)
    subst this
    rfl
  | succ n ih =>
    intro s h
    cases s with
    | nil => rfl
    | cons c cs =>
      show detok (tokGo (n + 1) (c :: cs)) = c :: cs
      by_cases hw : isWordChar c
      · have : tokGo (n + 1) (c :: cs) =
            Tok.word (c :: cs.takeWhile isWordChar) :: tokGo n (cs.dropWhile isWordChar) := by
          simp only [tokGo, if_pos hw]
        rw [this]
        show (c :: cs.takeWhile isWordChar) ++ detok (tokGo n (cs.dropWhile isWordChar)) = c :: cs
        rw [ih _ (le_trans (length_dropWhile_le _ _) (by simpa using h))]
        simp [List.takeWhile_append_dropWhile]
      · have : tokGo (n + 1) (c :: cs) = Tok.delim c :: tokGo n cs := by
          simp only [tokGo, if_neg hw]
        rw [this]
        show c :: detok (tokGo n cs) = c :: cs
        rw [ih cs (by simpa using h)]

theorem detok_tokenize (s : List Char) : detok (tokenize s) = s :=
  detok_tokGo s.length s le_rfl

theorem tokGo_nil (fuel : Nat) : tokGo fuel [] = [] := by
  cases fuel <;> rfl

theorem tokGo_headNotWord (fuel : Nat) (s : List Char) (h : s.length ≤ fuel)
    (hs : wordOpt s.head? = false) : headNotWord (tokGo fuel s) = true := by
  cases s with
  | nil => rw [tokGo_nil]; rfl
  | cons c cs =>
    cases fuel with
    | zero => simp at h
    | succ n =>
      have hw : isWordChar c = false := hs
      have : tokGo (n + 1) (c :: cs) = Tok.delim c :: tokGo n cs := by
        simp only [tokGo, hw]
        rfl
      rw [this]
      rfl

theorem tokGo_wf : ∀ (fuel : Nat) (s : List Char), s.length ≤ fuel →
    (tokGo fuel s).all wfTok = true ∧ noAdjWords (tokGo fuel s) = true := by
  intro fuel
  induction fuel with
  | zero =>
    intro s h
    have : s = [] := List.eq_nil_of_length_eq_zero (Nat.le_zero.mp h)
    subst this
    exact ⟨rfl, rfl⟩
  | succ n ih =>
    intro s h
    cases s with
    | nil => exact ⟨rfl, rfl⟩
    | cons c cs =>
      by_cases hw : isWordChar c
      · have heq : tokGo (n + 1) (c :: cs) =
            Tok.word (c :: cs.takeWhile isWordChar) :: tokGo n (cs.dropWhile isWordChar) := by
          simp only [tokGo, if_pos hw]
        have hlen : (cs.dropWhile isWordChar).length ≤ n :=
          le_trans (length_dropWhile_le _ _) (by simpa using h)
        have hword : wfTok (Tok.word (c :: cs.takeWhile isWordChar)) = true := by
          show (!(c :: cs.takeWhile isWordChar).isEmpty
            && (c :: cs.takeWhile isWordChar).all isWordChar) = true
          simp only [List.isEmpty_cons, Bool.not_false, Bool.true_and, List.all_cons, hw,
            Bool.true_and]
          exact List.all_eq_true.mpr (fun x hx => List.mem_takeWhile_imp hx)
        refine ⟨?_, ?_⟩
        · rw [heq, List.all_cons, hword, Bool.true_and]
          exact (ih _ hlen).1
        · rw [heq]
          show (headNotWord (tokGo n (cs.dropWhile isWordChar))
            && noAdjWords (tokGo n (cs.dropWhile isWordChar))) = true
          rw [tokGo_headNotWord n _ hlen (wordOpt_head_dropWhile cs), Bool.true_and]
          exact (ih _ hlen).2
      · have heq : tokGo (n + 1) (c :: cs) = Tok.delim c :: tokGo n cs := by
          simp only [tokGo, if_neg hw]
        have hlen : cs.length ≤ n := by simpa using h
        refine ⟨?_, ?_⟩
        · rw [heq, List.all_cons]
          show (!isWordChar c && (tokGo n cs).all wfTok) = true
          rw [(ih cs hlen).1]
          simp [hw]
        · rw [heq]
          show noAdjWords (tokGo n cs) = true
          exact (ih cs hlen).2

theorem tokenize_wf (s : List Char) :
    (tokenize s).all wfTok = true ∧ noAdjWords (tokenize s) = true :=
  tokGo_wf s.length s le_rfl

/-! ### Characterisation of the bootstrap matcher at a word-run start -/

theorem contains_iff_mem (l : List (List Char)) (a : List Char) :
    l.contains a = true ↔ a ∈ l := by
  show List.elem a l = true ↔ a ∈ l
  exact List.elem_iff

theorem find?_eq_some_of_unique {α : Type} (p : α → Bool) (l : List α) (a : α)
    (ha : a ∈ l) (hpa : p a = true) (huniq : ∀ b ∈ l, p b = true → b = a) :
    l.find? p = some a := by
  cases hfind : l.find? p with
  | none => exact absurd hpa (List.find?_eq_none.mp hfind a ha)
  | some b =>
    rw [huniq b (List.mem_of_find?_eq_some hfind) (List.find?_some hfind)]

theorem not_prefix_nil (g : List Char) (hg : g ≠ []) :
    g.isPrefixOf ([] : List Char) = false := by
  cases g with
  | nil => exact absurd rfl hg
  | cons d ds => rfl

theorem all_word_not_prefix_delim (g : List Char) (c : Char) (rest : List Char)
    (hg : g ≠ []) (hgw : g.all isWordChar = true) (hc : isWordChar c = false) :
    g.isPrefixOf (c :: rest) = false := by
  cases g with
  | nil => exact absurd rfl hg
  | cons d ds =>
    cases hb : (d :: ds).isPrefixOf (c :: rest) with
    | false => rfl
    | true =>
      exfalso
      obtain ⟨hdc, -⟩ := List.cons_prefix_cons.mp (List.isPrefixOf_iff_prefix.mp hb)
      have hd : isWordChar d = true :=
        (List.all_eq_true.mp hgw) d (List.mem_cons_self d ds)
      rw [hdc, hc] at hd
      exact Bool.false_ne_true hd

theorem detok_head_not_word (t : List Tok) (hwf : t.all wfTok = true)
    (ht : headNotWord t = true) : wordOpt ((detok t).head?) = false := by
  cases t with
  | nil => rfl
  | cons tok t' =>
    cases tok with
    | word w => exact absurd ht (by simp [headNotWord])
    | delim c =>
      show wordOpt ((c :: detok t').head?) = false
      have hc : wfTok (Tok.delim c) = true :=
        (List.all_eq_true.mp hwf) _ (List.mem_cons_self _ t')
      show isWordChar c = false
      simpa [wfTok] using hc

theorem lookB_detok (t : List Tok) (hwf : t.all wfTok = true)
    (ht : headNotWord t = true) : lookB ((detok t).head?) = nextOkTok t := by
  cases t with
  | nil => rfl
  | cons tok t' =>
    cases tok with
    | word w => exact absurd ht (by simp [headNotWord])
    | delim c => rfl

theorem all_word_prefix_of_word_append (g w D : List Char)
    (hgw : g.all isWordChar = true) (hD : wordOpt D.head? = false)
    (h : g <+: w ++ D) : g <+: w := by
  rcases List.prefix_or_prefix_of_prefix h (List.prefix_append w D) with h1 | h2
  · exact h1
  · obtain ⟨g₁, rfl⟩ := h2
    have hg₁ : g₁ <+: D := (List.prefix_append_right_inj w).mp h
    cases g₁ with
    | nil => simp
    | cons x xs =>
      exfalso
      obtain ⟨r, hr⟩ := hg₁
      have hx : isWordChar x = true := (List.all_eq_true.mp hgw) x (by simp)
      rw [← hr] at hD
      show False
      rw [show ((x :: xs ++ r).head? = some x) from rfl] at hD
      show False
      have : wordOpt (some x) = true := hx
      rw [hD] at this
      exact Bool.false_ne_true this

theorem drop_head_of_proper_prefix (g w D : List Char) (hpre : g <+: w) (hne : g ≠ w)
    (hww : w.all isWordChar = true) :
    wordOpt (((w ++ D).drop g.length).head?) = true := by
  obtain ⟨w₁, rfl⟩ := hpre
  cases w₁ with
  | nil => exact absurd (by simp) hne
  | cons x xs =>
    rw [List.append_assoc, List.drop_left]
    show wordOpt ((x :: (xs ++ D)).head?) = true
    exact (List.all_eq_true.mp hww) x (by simp)

theorem wordOpt_rightPrev (prev : Option Char) (g : List Char) (hg : g ≠ [])
    (hgw : g.all isWordChar = true) : wordOpt (rightPrev prev g) = true := by
  unfold rightPrev
  rw [List.getLast?_eq_getLast g hg]
  exact (List.all_eq_true.mp hgw) _ (List.getLast_mem hg)

/-- At the start of a maximal word run `w` (previous character not a word
character, following text `detok t` starting with a delimiter or empty), the
bootstrap matcher matches exactly when `w` itself is one of the gene names and
the following character satisfies the lookahead; and then it matches `w`. -/
theorem tryMatchB_at_word (genes : List (List Char)) (prev : Option Char)
    (w : List Char) (t : List Tok)
    (hgen : ∀ g ∈ genes, g ≠ [] ∧ g.all isWordChar = true)
    (hw : w ≠ []) (hww : w.all isWordChar = true)
    (hprev : wordOpt prev = false)
    (hwf : t.all wfTok = true) (ht : headNotWord t = true) :
    tryMatchB genes prev (w ++ detok t) =
      if genes.contains w && nextOkTok t then some w else none := by
  have hD : wordOpt ((detok t).head?) = false := detok_head_not_word t hwf ht
  have hbdry : boundary prev ((w ++ detok t).head?) = true := by
    cases w with
    | nil => exact absurd rfl hw
    | cons a w' =>
      have ha : isWordChar a = true := (List.all_eq_true.mp hww) a (by simp)
      show (wordOpt prev != wordOpt ((a :: (w' ++ detok t)).head?)) = true
      rw [hprev]
      show (false != wordOpt (some a)) = true
      rw [show wordOpt (some a) = true from ha]
      rfl
  have hpred : ∀ g ∈ genes,
      ((g.isPrefixOf (w ++ detok t)
        && boundary (rightPrev prev g) (((w ++ detok t).drop g.length).head?))
        && lookB (((w ++ detok t).drop g.length).head?)) = true
      ↔ (g = w ∧ nextOkTok t = true) := by
    intro g hg
    obtain ⟨hgne, hgw⟩ := hgen g hg
    constructor
    · intro hp
      rw [Bool.and_eq_true, Bool.and_eq_true] at hp
      obtain ⟨⟨hp1, hp2⟩, hp3⟩ := hp
      have hpre : g <+: w :=
        all_word_prefix_of_word_append g w (detok t) hgw hD
          (List.isPrefixOf_iff_prefix.mp hp1)
      by_cases hgweq : g = w
      · subst hgweq
        refine ⟨rfl, ?_⟩
        rw [show (g ++ detok t).drop g.length = detok t from List.drop_left g (detok t)]
          at hp3
        rw [lookB_detok t hwf ht] at hp3
        exact hp3
      · exfalso
        have hnx := drop_head_of_proper_prefix g w (detok t) hpre hgweq hww
        have hr : wordOpt (rightPrev prev g) = true := wordOpt_rightPrev prev g hgne hgw
        rw [show boundary (rightPrev prev g) (((w ++ detok t).drop g.length).head?)
          = (wordOpt (rightPrev prev g) != wordOpt (((w ++ detok t).drop g.length).head?))
          from rfl, hr, hnx] at hp2
        exact Bool.false_ne_true hp2
    · rintro ⟨rfl, hnext⟩
      have h1 : g.isPrefixOf (g ++ detok t) = true :=
        List.isPrefixOf_iff_prefix.mpr (List.prefix_append g (detok t))
      have hdrop : (g ++ detok t).drop g.length = detok t := List.drop_left g (detok t)
      have h2 : boundary (rightPrev prev g) ((detok t).head?) = true := by
        show (wordOpt (rightPrev prev g) != wordOpt ((detok t).head?)) = true
        rw [wordOpt_rightPrev prev g hgne hgw, hD]
        rfl
      have h3 : lookB ((detok t).head?) = true := by
        rw [lookB_detok t hwf ht]
        exact hnext
      rw [h1, hdrop, h2, h3]
      rfl
  have hstep : tryMatchB genes prev (w ++ detok t) = genes.find? (fun g =>
      (g.isPrefixOf (w ++ detok t)
        && boundary (rightPrev prev g) (((w ++ detok t).drop g.length).head?))
        && lookB (((w ++ detok t).drop g.length).head?)) := by
    unfold tryMatchB
    rw [hbdry]
    rfl
  rw [hstep]
  by_cases hc : (genes.contains w && nextOkTok t) = true
  · rw [if_pos hc]
    rw [Bool.and_eq_true] at hc
    have hwmem : w ∈ genes := (contains_iff_mem genes w).mp hc.1
    exact find?_eq_some_of_unique _ genes w hwmem
      ((hpred w hwmem).mpr ⟨rfl, hc.2⟩)
      (fun b hb hpb => ((hpred b hb).mp hpb).1)
  · rw [if_neg hc]
    apply List.find?_eq_none.mpr
    intro g hg hcontra
    obtain ⟨hgweq, hnext⟩ := (hpred g hg).mp hcontra
    subst hgweq
    apply hc
    rw [Bool.and_eq_true]
    exact ⟨(contains_iff_mem genes g).mpr hg, hnext⟩

/-! ### One bootstrap pass is the token-wise rewrite -/

theorem wfTok_word (w : List Char) (h : wfTok (Tok.word w) = true) :
    w ≠ [] ∧ w.all isWordChar = true := by
  rw [show wfTok (Tok.word w) = (!w.isEmpty && w.all isWordChar) from rfl,
    Bool.and_eq_true] at h
  refine ⟨?_, h.2⟩
  intro hnil
  subst hnil
  simp at h

theorem wordOpt_rightPrev_of (prev : Option Char) (v : List Char)
    (hprev : wordOpt prev = true) (hv : v.all isWordChar = true) :
    wordOpt (rightPrev prev v) = true := by
  unfold rightPrev
  cases hl : v.getLast? with
  | none => exact hprev
  | some c =>
    show isWordChar c = true
    exact (List.all_eq_true.mp hv) c (List.mem_of_mem_getLast? hl)

theorem rightPrev_cons (prev : Option Char) (d : Char) (v : List Char) :
    rightPrev prev (d :: v) = rightPrev (some d) v := by
  unfold rightPrev
  rw [List.getLast?_cons]
  cases hv : v.getLast? with
  | none => rfl
  | some x => rfl

theorem subBGo_at_nil (genes : List (List Char)) (repl : List Char) (fuel : Nat)
    (prev : Option Char) :
    subBGo genes repl fuel prev [] =
      if (tryMatchB genes prev []).isSome then repl else [] := by
  cases fuel <;> rfl

theorem tryMatchB_nil (genes : List (List Char)) (prev : Option Char)
    (hgen : ∀ g ∈ genes, g ≠ [] ∧ g.all isWordChar = true) :
    tryMatchB genes prev [] = none := by
  unfold tryMatchB
  cases hbv : boundary prev (([] : List Char).head?) with
  | false => rfl
  | true =>
    show List.find? _ genes = none
    apply List.find?_eq_none.mpr
    intro g hg
    rw [not_prefix_nil g (hgen g hg).1]
    simp

theorem tryMatchB_delim (genes : List (List Char)) (prev : Option Char) (c : Char)
    (rest : List Char) (hgen : ∀ g ∈ genes, g ≠ [] ∧ g.all isWordChar = true)
    (hc : isWordChar c = false) :
    tryMatchB genes prev (c :: rest) = none := by
  unfold tryMatchB
  cases hbv : boundary prev ((c :: rest).head?) with
  | false => rfl
  | true =>
    show List.find? _ genes = none
    apply List.find?_eq_none.mpr
    intro g hg
    rw [all_word_not_prefix_delim g c rest (hgen g hg).1 (hgen g hg).2 hc]
    simp

theorem subBGo_emit_run (genes : List (List Char)) (repl : List Char) :
    ∀ (v : List Char) (prev : Option Char) (D : List Char) (fuel : Nat),
      v.all isWordChar = true → wordOpt prev = true → (v ++ D).length ≤ fuel →
      subBGo genes repl fuel prev (v ++ D)
        = v ++ subBGo genes repl (fuel - v.length) (rightPrev prev v) D := by
  intro v
  induction v with
  | nil =>
    intro prev D fuel _ _ _
    rfl
  | cons d v' ih =>
    intro prev D fuel hall hprev hlen
    cases fuel with
    | zero => simp at hlen
    | succ f =>
      rw [List.all_cons, Bool.and_eq_true] at hall
      have hnm : tryMatchB genes prev (d :: (v' ++ D)) = none := by
        unfold tryMatchB
        have hb : boundary prev ((d :: (v' ++ D)).head?) = false := by
          show (wordOpt prev != wordOpt (some d)) = false
          rw [hprev, show wordOpt (some d) = true from hall.1]
          rfl
        rw [hb]
        rfl
      have heq : subBGo genes repl (f + 1) prev (d :: (v' ++ D))
          = d :: subBGo genes repl f (some d) (v' ++ D) := by
        simp only [subBGo]
        rw [hnm]
      have hlen' : (v' ++ D).length ≤ f := by
        simp only [List.cons_append, List.length_cons] at hlen
        omega
      have harith : f + 1 - (d :: v').length = f - v'.length := by
        simp only [List.length_cons]
        omega
      rw [List.cons_append, heq,
        ih (some d) D f hall.2 (show wordOpt (some d) = true from hall.1) hlen',
        rightPrev_cons, harith, List.cons_append]

theorem subBGo_tok (genes : List (List Char)) (repl : List Char)
    (hgen : ∀ g ∈ genes, g ≠ [] ∧ g.all isWordChar = true) :
    ∀ (ts : List Tok) (prev : Option Char) (fuel : Nat),
      (detok ts).length ≤ fuel →
      ts.all wfTok = true → noAdjWords ts = true →
      (wordOpt prev = false ∨ headNotWord ts = true) →
      subBGo genes repl fuel prev (detok ts) = detok (tokRw genes repl ts) := by
  intro ts
  induction ts with
  | nil =>
    intro prev fuel _ _ _ _
    show subBGo genes repl fuel prev [] = []
    rw [subBGo_at_nil, tryMatchB_nil genes prev hgen]
    rfl
  | cons tok t ih =>
    intro prev fuel hlen hwf hadj hside
    rw [List.all_cons, Bool.and_eq_true] at hwf
    cases tok with
    | delim c =>
      have hc : isWordChar c = false := by simpa [wfTok] using hwf.1
      cases fuel with
      | zero => simp [detok] at hlen
      | succ f =>
        have hnm := tryMatchB_delim genes prev c (detok t) hgen hc
        show subBGo genes repl (f + 1) prev (c :: detok t)
          = detok (Tok.delim c :: tokRw genes repl t)
        have heq : subBGo genes repl (f + 1) prev (c :: detok t)
            = c :: subBGo genes repl f (some c) (detok t) := by
          simp only [subBGo]
          rw [hnm]
        rw [heq]
        show c :: _ = c :: detok (tokRw genes repl t)
        congr 1
        exact ih (some c) f (by simpa [detok] using hlen) hwf.2
          (show noAdjWords t = true from hadj) (Or.inl hc)
    | word w =>
      have hside' : wordOpt prev = false := by
        rcases hside with h | h
        · exact h
        · exact absurd h (by simp [headNotWord])
      obtain ⟨hwne, hww⟩ := wfTok_word w hwf.1
      have hadj' : headNotWord t = true ∧ noAdjWords t = true := by
        rw [show noAdjWords (Tok.word w :: t) = (headNotWord t && noAdjWords t) from rfl,
          Bool.and_eq_true] at hadj
        exact hadj
      have hmatch := tryMatchB_at_word genes prev w t hgen hwne hww hside' hwf.2 hadj'.1
      cases w with
      | nil => exact absurd rfl hwne
      | cons a w' =>
        rw [List.all_cons, Bool.and_eq_true] at hww
        cases fuel with
        | zero => simp [detok] at hlen
        | succ f =>
          have hlen' : w'.length + (detok t).length ≤ f := by
            simp only [detok, List.cons_append, List.length_cons, List.length_append] at hlen
            omega
          show subBGo genes repl (f + 1) prev ((a :: w') ++ detok t)
            = detok (tokRw genes repl (Tok.word (a :: w') :: t))
          by_cases hcnd : (genes.contains (a :: w') && nextOkTok t) = true
          · rw [if_pos hcnd] at hmatch
            have heq : subBGo genes repl (f + 1) prev (a :: (w' ++ detok t))
                = repl ++ subBGo genes repl f (some ((a :: w').getLast (by simp)))
                    ((a :: (w' ++ detok t)).drop (a :: w').length) := by
              simp only [subBGo]
              rw [show tryMatchB genes prev (a :: (w' ++ detok t)) = some (a :: w') by
                rw [← List.cons_append]; exact hmatch]
            have hdrop : (a :: (w' ++ detok t)).drop (a :: w').length = detok t := by
              rw [← List.cons_append, List.drop_left]
            have hlast : wordOpt (some ((a :: w').getLast (by simp))) = true := by
              show isWordChar ((a :: w').getLast (by simp)) = true
              have hmem := List.getLast_mem (l := a :: w') (by simp)
              rcases List.mem_cons.mp hmem with h | h
              · rw [h]; exact hww.1
              · exact (List.all_eq_true.mp hww.2) _ h
            rw [List.cons_append, heq, hdrop,
              ih _ f (by omega) hwf.2 hadj'.2 (Or.inr hadj'.1)]
            show repl ++ detok (tokRw genes repl t)
              = detok (tokRw genes repl (Tok.word (a :: w') :: t))
            rw [show tokRw genes repl (Tok.word (a :: w') :: t)
              = (if genes.contains (a :: w') && nextOkTok t then Tok.word repl
                  else Tok.word (a :: w')) :: tokRw genes repl t from rfl,
              if_pos hcnd]
            rfl
          · rw [if_neg hcnd] at hmatch
            have heq : subBGo genes repl (f + 1) prev (a :: (w' ++ detok t))
                = a :: subBGo genes repl f (some a) (w' ++ detok t) := by
              simp only [subBGo]
              rw [show tryMatchB genes prev (a :: (w' ++ detok t)) = none by
                rw [← List.cons_append]; exact hmatch]
            rw [List.cons_append, heq,
              subBGo_emit_run genes repl w' (some a) (detok t) f hww.2
                (show wordOpt (some a) = true from hww.1) (by simp; omega),
              ih (rightPrev (some a) w') (f - w'.length) (by omega) hwf.2 hadj'.2
                (Or.inr hadj'.1)]
            rw [show tokRw genes repl (Tok.word (a :: w') :: t)
              = (if genes.contains (a :: w') && nextOkTok t then Tok.word repl
                  else Tok.word (a :: w')) :: tokRw genes repl t from rfl,
              if_neg hcnd]
            show a :: (w' ++ detok (tokRw genes repl t))
              = (a :: w') ++ detok (tokRw genes repl t)
            rw [List.cons_append]

/-- A bootstrap-mode `re.sub` pass with nonempty all-word-character gene names
acts on the text token-wise: a maximal word run is replaced exactly when it
equals one of the gene names and is followed by `,`, `)`, `:` or the end. -/
theorem subB_tok (genes : List (List Char)) (repl : List Char)
    (hgen : ∀ g ∈ genes, g ≠ [] ∧ g.all isWordChar = true) (text : List Char) :
    subB genes repl text = detok (tokRw genes repl (tokenize text)) := by
  have hd := detok_tokenize text
  have hwf := tokenize_wf text
  have := subBGo_tok genes repl hgen (tokenize text) none text.length
    (by rw [hd]) hwf.1 hwf.2 (Or.inl rfl)
  rw [hd] at this
  exact this

/-! ### Bootstrap passes at the level of `process_tree_content` -/

theorem bool_eq_of_iff {a b : Bool} (h : a = true ↔ b = true) : a = b := by
  cases b with
  | true => exact h.mpr rfl
  | false =>
    cases ha : a with
    | false => rfl
    | true => exact absurd (h.mp ha) (by simp)

theorem takeWhile_append_of_all (p : Char → Bool) :
    ∀ (l r : List Char), l.all p = true → (∀ x, r.head? = some x → p x = false) →
      (l ++ r).takeWhile p = l ∧ (l ++ r).dropWhile p = r := by
  intro l
  induction l with
  | nil =>
    intro r _ hr
    cases r with
    | nil => exact ⟨rfl, rfl⟩
    | cons x xs =>
      have hx : p x = false := hr x rfl
      constructor
      · show (x :: xs).takeWhile p = []
        rw [List.takeWhile_cons, hx]
        rfl
      · show (x :: xs).dropWhile p = x :: xs
        rw [List.dropWhile_cons, hx]
        rfl
  | cons c t ih =>
    intro r hall hr
    rw [List.all_cons, Bool.and_eq_true] at hall
    have := ih r hall.2 hr
    constructor
    · show ((c :: t) ++ r).takeWhile p = c :: t
      rw [List.cons_append, List.takeWhile_cons, hall.1]
      rw [if_pos rfl, this.1]
    · show ((c :: t) ++ r).dropWhile p = r
      rw [List.cons_append, List.dropWhile_cons, hall.1]
      rw [if_pos rfl]
      exact this.2

/-- Tokenizing a single word run followed by one delimiter. -/
theorem tokenize_word_delim (w : List Char) (c : Char) (hw : w ≠ [])
    (hww : w.all isWordChar = true) (hc : isWordChar c = false) :
    tokenize (w ++ [c]) = [Tok.word w, Tok.delim c] := by
  cases w with
  | nil => exact absurd rfl hw
  | cons a w' =>
    rw [List.all_cons, Bool.and_eq_true] at hww
    have hsplit := takeWhile_append_of_all isWordChar w' [c] hww.2
      (fun x hx => by cases hx; exact hc)
    show tokGo ((a :: w' ++ [c]).length) (a :: (w' ++ [c])) = _
    have hlen : (a :: w' ++ [c]).length = w'.length + 1 + 1 := by
      simp [List.length_append]
    rw [hlen]
    have h1 : tokGo (w'.length + 1 + 1) (a :: (w' ++ [c]))
        = Tok.word (a :: (w' ++ [c]).takeWhile isWordChar)
          :: tokGo (w'.length + 1) ((w' ++ [c]).dropWhile isWordChar) := by
      simp only [tokGo, if_pos hww.1]
    rw [h1, hsplit.1, hsplit.2]
    have h2 : tokGo (w'.length + 1) [c] = Tok.delim c :: tokGo w'.length [] := by
      simp only [tokGo, hc]
      rfl
    rw [h2, tokGo_nil]

/-- Tokenizing a single word run. -/
theorem tokenize_single_word (w : List Char) (hw : w ≠ [])
    (hww : w.all isWordChar = true) : tokenize w = [Tok.word w] := by
  cases w with
  | nil => exact absurd rfl hw
  | cons a w' =>
    rw [List.all_cons, Bool.and_eq_true] at hww
    have hsplit := takeWhile_append_of_all isWordChar w' [] hww.2 (fun x hx => by cases hx)
    rw [List.append_nil] at hsplit
    show tokGo ((a :: w').length) (a :: w') = _
    have h1 : tokGo (w'.length + 1) (a :: w')
        = Tok.word (a :: w'.takeWhile isWordChar) :: tokGo w'.length (w'.dropWhile isWordChar) := by
      simp only [tokGo, if_pos hww.1]
    rw [show (a :: w').length = w'.length + 1 from rfl, h1, hsplit.1, hsplit.2, tokGo_nil]

/-- The token rewrite depends on the gene list only through membership. -/
theorem tokRw_congr (genes1 genes2 : List (List Char)) (repl : List Char)
    (h : ∀ w, genes1.contains w = genes2.contains w) :
    ∀ ts, tokRw genes1 repl ts = tokRw genes2 repl ts := by
  intro ts
  induction ts with
  | nil => rfl
  | cons tok t ih =>
    cases tok with
    | word w =>
      show (if genes1.contains w && nextOkTok t then Tok.word repl else Tok.word w)
          :: tokRw genes1 repl t = _
      rw [h w, ih]
      rfl
    | delim c =>
      show Tok.delim c :: tokRw genes1 repl t = Tok.delim c :: tokRw genes2 repl t
      rw [ih]

theorem contains_sortLenDesc_data (genes : List String) (w : List Char) :
    ((sortLenDesc genes).map String.data).contains w = (genes.map String.data).contains w := by
  apply bool_eq_of_iff
  rw [contains_iff_mem, contains_iff_mem]
  constructor
  · intro h
    obtain ⟨g, hg, rfl⟩ := List.mem_map.mp h
    exact List.mem_map.mpr ⟨g, (mem_sortLenDesc g genes).mp hg, rfl⟩
  · intro h
    obtain ⟨g, hg, rfl⟩ := List.mem_map.mp h
    exact List.mem_map.mpr ⟨g, (mem_sortLenDesc g genes).mpr hg, rfl⟩

/-- A bootstrap pass, computed on the token view of the content (gene names
nonempty and word-character only). -/
theorem applyPass_boot_eq (content sp : String) (genes : List String)
    (hgen : ∀ g ∈ genes, g.data ≠ [] ∧ g.data.all isWordChar = true) :
    applyPass true content sp genes
      = ⟨detok (tokRw (genes.map String.data) sp.data (tokenize content.data))⟩ := by
  show (⟨subB ((sortLenDesc genes).map String.data) sp.data content.data⟩ : String) = _
  rw [subB_tok _ _ ?hwf content.data,
    tokRw_congr _ (genes.map String.data) sp.data (contains_sortLenDesc_data genes)]
  intro gd hgd
  obtain ⟨g, hg, rfl⟩ := List.mem_map.mp hgd
  exact hgen g ((mem_sortLenDesc g genes).mp hg)

/-- If every single pass maps `text` to itself, the whole species loop does. -/
theorem runPasses_fixed (mode : Bool) (passes : List (String × List String)) (text : String)
    (h : ∀ p ∈ passes, applyPass mode text p.1 p.2 = text) :
    runPasses mode passes text = text := by
  induction passes with
  | nil => rfl
  | cons p ps ih =>
    show List.foldl _ _ (p :: ps) = text
    rw [List.foldl_cons]
    have hstep : (if p.2.isEmpty then text else applyPass mode text p.1 p.2) = text := by
      by_cases hc : p.2.isEmpty
      · rw [if_pos hc]
      · rw [if_neg hc]
        exact h p (List.mem_cons_self p ps)
    rw [hstep]
    exact ih (fun q hq => h q (List.mem_cons_of_mem p hq))

/-- Gene names recorded in any pass of `buildS2G m` are keys of `m`, so they
inherit any property of the keys. -/
theorem buildS2G_genes_wf (m : List (String × String))
    (hkeys : ∀ k ∈ m.map Prod.fst, k.data ≠ [] ∧ k.data.all isWordChar = true) :
    ∀ p ∈ buildS2G m, ∀ g ∈ p.2, g.data ≠ [] ∧ g.data.all isWordChar = true := by
  intro p hp g hg
  exact hkeys g (List.mem_map.mpr ⟨(g, p.1), buildS2G_genes_mem m p hp g hg, rfl⟩)

theorem tokRw_word_delim_noLook (genes : List (List Char)) (repl w : List Char) (c : Char)
    (hc : (c == ',' || c == ')' || c == ':') = false) :
    tokRw genes repl [Tok.word w, Tok.delim c] = [Tok.word w, Tok.delim c] := by
  show (if genes.contains w && nextOkTok [Tok.delim c] then Tok.word repl else Tok.word w)
      :: tokRw genes repl [Tok.delim c] = _
  rw [show nextOkTok [Tok.delim c] = (c == ',' || c == ')' || c == ':') from rfl, hc,
    Bool.and_false]
  rfl

theorem tokRw_word_delim_look (genes : List (List Char)) (repl w : List Char) (c : Char)
    (hcont : genes.contains w = true) (hc : (c == ',' || c == ')' || c == ':') = true) :
    tokRw genes repl [Tok.word w, Tok.delim c] = [Tok.word repl, Tok.delim c] := by
  show (if genes.contains w && nextOkTok [Tok.delim c] then Tok.word repl else Tok.word w)
      :: tokRw genes repl [Tok.delim c] = _
  rw [show nextOkTok [Tok.delim c] = (c == ',' || c == ')' || c == ':') from rfl, hc, hcont]
  rfl

theorem tokRw_single_word_look (genes : List (List Char)) (repl w : List Char)
    (hcont : genes.contains w = true) :
    tokRw genes repl [Tok.word w] = [Tok.word repl] := by
  show (if genes.contains w && nextOkTok [] then Tok.word repl else Tok.word w)
      :: tokRw genes repl [] = _
  rw [hcont]
  rfl

theorem tokRw_single_word_not_mem (genes : List (List Char)) (repl w : List Char)
    (hcont : genes.contains w = false) :
    tokRw genes repl [Tok.word w] = [Tok.word w] := by
  show (if genes.contains w && nextOkTok [] then Tok.word repl else Tok.word w)
      :: tokRw genes repl [] = _
  rw [hcont, Bool.false_and]
  rfl

theorem lookChar_not_word (c : Char) (h : (c == ',' || c == ')' || c == ':') = true) :
    isWordChar c = false := by
  rw [Bool.or_eq_true, Bool.or_eq_true] at h
  rcases h with (h | h) | h <;> rw [eq_of_beq h] <;> decide

/-- C10: in BOOTSTRAP mode a gene name immediately followed by `;` is left
unreplaced, because `;` is not in the `[,):]`-or-end lookahead — the
single-leaf tree `G;` is returned unchanged even when `G` is a key of the
table (for any table whose keys are nonempty word-character names). -/
theorem c10_semicolon_unreplaced (m : List (String × String)) (g : String)
    (hkeys : ∀ k ∈ m.map Prod.fst, k.data ≠ [] ∧ k.data.all isWordChar = true)
    (hgm : g ∈ m.map Prod.fst) :
    process_tree_content ⟨g.data ++ [';']⟩ m true = ⟨g.data ++ [';']⟩ := by
  obtain ⟨hgne, hgw⟩ := hkeys g hgm
  unfold process_tree_content
  by_cases hc : m.isEmpty
  · rw [if_pos hc]
  · rw [if_neg hc]
    apply runPasses_fixed
    intro p hp
    rw [applyPass_boot_eq _ _ _ (buildS2G_genes_wf m hkeys p hp)]
    show (⟨detok (tokRw (p.2.map String.data) p.1.data (tokenize (g.data ++ [';'])))⟩ :
      String) = _
    rw [tokenize_word_delim g.data ';' hgne hgw (by decide),
      tokRw_word_delim_noLook _ _ _ _ (by decide)]
    rfl

/-- C10 witness: `"G;"` with the table `{"G" -> "S"}`. -/
theorem c10_semicolon_unreplaced_witness :
    process_tree_content ⟨"G".data ++ [';']⟩ [("G", "S")] true = ⟨"G".data ++ [';']⟩ :=
  c10_semicolon_unreplaced [("G", "S")] "G" (by decide) (by decide)

/-- C3 (amended): in BOOTSTRAP mode the word boundaries restrict replacement to
whole word tokens — a word token that is not itself a gene name is never
rewritten, even when gene names occur inside it as proper substrings; in
PRIMARY mode only the trailing `:` is checked, so a gene name that is a proper
suffix of a longer token immediately before `:` IS replaced. -/
theorem c3_whole_token_only :
    (∀ (m : List (String × String)) (w : String),
      (∀ k ∈ m.map Prod.fst, k.data ≠ [] ∧ k.data.all isWordChar = true) →
      w.data ≠ [] → w.data.all isWordChar = true → w ∉ m.map Prod.fst →
      process_tree_content w m true = w)
    ∧ process_tree_content "ABC:1" [("BC", "S")] false = "AS:1" := by
  constructor
  · intro m w hkeys hwne hww hwm
    unfold process_tree_content
    by_cases hc : m.isEmpty
    · rw [if_pos hc]
    · rw [if_neg hc]
      apply runPasses_fixed
      intro p hp
      rw [applyPass_boot_eq _ _ _ (buildS2G_genes_wf m hkeys p hp)]
      show (⟨detok (tokRw (p.2.map String.data) p.1.data (tokenize w.data))⟩ : String) = _
      have hcont : (p.2.map String.data).contains w.data = false := by
        cases hb : (p.2.map String.data).contains w.data with
        | false => rfl
        | true =>
          exfalso
          obtain ⟨k, hk, hkd⟩ := List.mem_map.mp ((contains_iff_mem _ _).mp hb)
          have hkw : k = w := by
            cases k
            cases w
            exact congrArg String.mk hkd
          subst hkw
          exact hwm (List.mem_map.mpr ⟨(k, p.1), buildS2G_genes_mem m p hp k hk, rfl⟩)
      rw [tokenize_single_word w.data hwne hww, tokRw_single_word_not_mem _ _ _ hcont]
      show (⟨w.data ++ []⟩ : String) = w
      rw [List.append_nil]
  · decide

/-- C3 (amended) witness: `"ABC"` stays unchanged in BOOTSTRAP mode under
`{"BC" -> "S"}`, although the gene `BC` occurs inside it. -/
theorem c3_whole_token_only_witness :
    process_tree_content "ABC" [("BC", "S")] true = "ABC" :=
  c3_whole_token_only.1 [("BC", "S")] "ABC" (by decide) (by decide) (by decide) (by decide)

theorem no_colon_extend (g text : List Char)
    (h : ∀ i ≤ text.length, ¬(g.isPrefixOf (text.drop i) ∧
      ((text.drop i).drop g.length).head? = some ':')) :
    ∀ i, ¬(g.isPrefixOf (text.drop i) ∧ ((text.drop i).drop g.length).head? = some ':') := by
  intro i
  by_cases hc : i ≤ text.length
  · exact h i hc
  · intro hcontra
    have hnil : text.drop i = [] := List.drop_eq_nil_of_le (Nat.le_of_lt (Nat.not_le.mp hc))
    rw [hnil] at hcontra
    have := hcontra.2
    simp at this

/-- C4: context sensitivity of the two modes.  In PRIMARY mode, if no gene of
the table occurs immediately before a `:` anywhere in the text, the text is
returned unchanged (occurrences not followed by `:` are never replaced); in
BOOTSTRAP mode a gene name standing as a whole token followed by `,`, `)`,
`:`, or the end of input IS replaced by its species name. -/
theorem c4_context_sensitivity :
    (∀ (m : List (String × String)) (text : String),
        (∀ g ∈ m.map Prod.fst, ∀ i ≤ text.data.length,
          ¬(g.data.isPrefixOf (text.data.drop i) ∧
            (((text.data.drop i).drop g.data.length).head? = some ':'))) →
        process_tree_content text m false = text)
    ∧ (∀ (g s : String) (c : Char), g.data ≠ [] → g.data.all isWordChar = true →
        (c == ',' || c == ')' || c == ':') = true →
        process_tree_content ⟨g.data ++ [c]⟩ [(g, s)] true = ⟨s.data ++ [c]⟩)
    ∧ (∀ (g s : String), g.data ≠ [] → g.data.all isWordChar = true →
        process_tree_content g [(g, s)] true = s) := by
  refine ⟨?_, ?_, ?_⟩
  · intro m text h
    exact process_primary_id m text (fun g hg => no_colon_extend g.data text.data (h g hg))
  · intro g s c hgne hgw hl
    show runPasses true (buildS2G [(g, s)]) ⟨g.data ++ [c]⟩ = ⟨s.data ++ [c]⟩
    show applyPass true ⟨g.data ++ [c]⟩ s [g] = ⟨s.data ++ [c]⟩
    rw [applyPass_boot_eq _ _ _ (by
      intro x hx
      rw [List.mem_singleton.mp hx]
      exact ⟨hgne, hgw⟩)]
    show (⟨detok (tokRw [g.data] s.data (tokenize (g.data ++ [c])))⟩ : String) = _
    rw [tokenize_word_delim g.data c hgne hgw (lookChar_not_word c hl),
      tokRw_word_delim_look [g.data] s.data g.data c
        ((contains_iff_mem _ _).mpr (List.mem_singleton.mpr rfl)) hl]
    rfl
  · intro g s hgne hgw
    show runPasses true (buildS2G [(g, s)]) g = s
    show applyPass true g s [g] = s
    rw [applyPass_boot_eq _ _ _ (by
      intro x hx
      rw [List.mem_singleton.mp hx]
      exact ⟨hgne, hgw⟩)]
    show (⟨detok (tokRw [g.data] s.data (tokenize g.data))⟩ : String) = _
    rw [tokenize_single_word g.data hgne hgw,
      tokRw_single_word_look [g.data] s.data g.data
        ((contains_iff_mem _ _).mpr (List.mem_singleton.mpr rfl))]
    show (⟨s.data ++ []⟩ : String) = s
    rw [List.append_nil]

/-- C4 witness: the three parts at the table `{"G" -> "S"}` — `"G,x"` is
unchanged in PRIMARY mode, while `"G,"` and `"G"` are rewritten in BOOTSTRAP
mode. -/
theorem c4_context_sensitivity_witness :
    process_tree_content "G,x" [("G", "S")] false = "G,x"
    ∧ process_tree_content ⟨"G".data ++ [',']⟩ [("G", "S")] true = ⟨"S".data ++ [',']⟩
    ∧ process_tree_content "G" [("G", "S")] true = "S" :=
  ⟨c4_context_sensitivity.1 [("G", "S")] "G,x" (by decide),
    c4_context_sensitivity.2.1 "G" "S" ',' (by decide) (by decide) (by decide),
    c4_context_sensitivity.2.2 "G" "S" (by decide) (by decide)⟩

/-! ### Commutation of bootstrap passes (token level) -/

theorem string_data_inj {a b : String} (h : a.data = b.data) : a = b := by
  cases a
  cases b
  exact congrArg String.mk h

theorem contains_data_false (l : List String) (x : String) (hx : x ∉ l) :
    (l.map String.data).contains x.data = false := by
  cases hb : (l.map String.data).contains x.data with
  | false => rfl
  | true =>
    exfalso
    obtain ⟨g, hg, hgd⟩ := List.mem_map.mp ((contains_iff_mem _ _).mp hb)
    rw [string_data_inj hgd] at hg
    exact hx hg

theorem tokGo_detok : ∀ (ts : List Tok) (fuel : Nat), (detok ts).length ≤ fuel →
    ts.all wfTok = true → noAdjWords ts = true → tokGo fuel (detok ts) = ts := by
  intro ts
  induction ts with
  | nil =>
    intro fuel _ _ _
    exact tokGo_nil fuel
  | cons tok t ih =>
    intro fuel hlen hwf hadj
    rw [List.all_cons, Bool.and_eq_true] at hwf
    cases tok with
    | delim c =>
      have hc : isWordChar c = false := by simpa [wfTok] using hwf.1
      cases fuel with
      | zero => simp [detok] at hlen
      | succ f =>
        show tokGo (f + 1) (c :: detok t) = Tok.delim c :: t
        have heq : tokGo (f + 1) (c :: detok t) = Tok.delim c :: tokGo f (detok t) := by
          simp only [tokGo, hc]
          rfl
        rw [heq, ih f (by simpa [detok] using hlen) hwf.2
          (show noAdjWords t = true from hadj)]
    | word w =>
      obtain ⟨hwne, hww⟩ := wfTok_word w hwf.1
      have hadj' : headNotWord t = true ∧ noAdjWords t = true := by
        rw [show noAdjWords (Tok.word w :: t) = (headNotWord t && noAdjWords t) from rfl,
          Bool.and_eq_true] at hadj
        exact hadj
      cases w with
      | nil => exact absurd rfl hwne
      | cons a w' =>
        rw [List.all_cons, Bool.and_eq_true] at hww
        cases fuel with
        | zero => simp [detok] at hlen
        | succ f =>
          have hhead : ∀ x, (detok t).head? = some x → isWordChar x = false := by
            intro x hx
            have := detok_head_not_word t hwf.2 hadj'.1
            rw [hx] at this
            exact this
          have hsplit := takeWhile_append_of_all isWordChar w' (detok t) hww.2 hhead
          show tokGo (f + 1) (a :: (w' ++ detok t)) = Tok.word (a :: w') :: t
          have heq : tokGo (f + 1) (a :: (w' ++ detok t))
              = Tok.word (a :: (w' ++ detok t).takeWhile isWordChar)
                :: tokGo f ((w' ++ detok t).dropWhile isWordChar) := by
            simp only [tokGo, if_pos hww.1]
          rw [heq, hsplit.1, hsplit.2]
          have hlen' : (detok t).length ≤ f := by
            simp only [detok, List.cons_append, List.length_cons, List.length_append] at hlen
            omega
          rw [ih f hlen' hwf.2 hadj'.2]

/-- On well-formed token lists, tokenizing the flattening recovers the list. -/
theorem tokenize_detok (ts : List Tok) (hwf : ts.all wfTok = true)
    (hadj : noAdjWords ts = true) : tokenize (detok ts) = ts :=
  tokGo_detok ts (detok ts).length le_rfl hwf hadj

theorem headNotWord_tokRw (genes : List (List Char)) (repl : List Char) (t : List Tok) :
    headNotWord (tokRw genes repl t) = headNotWord t := by
  cases t with
  | nil => rfl
  | cons tok t' =>
    cases tok with
    | word w =>
      show headNotWord ((if genes.contains w && nextOkTok t' then Tok.word repl
        else Tok.word w) :: tokRw genes repl t') = false
      by_cases hc : (genes.contains w && nextOkTok t') = true
      · rw [if_pos hc]
        rfl
      · rw [if_neg hc]
        rfl
    | delim c => rfl

theorem nextOkTok_tokRw (genes : List (List Char)) (repl : List Char) (t : List Tok) :
    nextOkTok (tokRw genes repl t) = nextOkTok t := by
  cases t with
  | nil => rfl
  | cons tok t' =>
    cases tok with
    | word w =>
      show nextOkTok ((if genes.contains w && nextOkTok t' then Tok.word repl
        else Tok.word w) :: tokRw genes repl t') = false
      by_cases hc : (genes.contains w && nextOkTok t') = true
      · rw [if_pos hc]
        rfl
      · rw [if_neg hc]
        rfl
    | delim c => rfl

/-- The token rewrite preserves well-formedness when the replacement is a
nonempty word-character string. -/
theorem tokRw_wf (genes : List (List Char)) (repl : List Char)
    (hrne : repl ≠ []) (hrw : repl.all isWordChar = true) :
    ∀ ts, ts.all wfTok = true → noAdjWords ts = true →
      (tokRw genes repl ts).all wfTok = true ∧ noAdjWords (tokRw genes repl ts) = true := by
  intro ts
  induction ts with
  | nil => intro _ _; exact ⟨rfl, rfl⟩
  | cons tok t ih =>
    intro hwf hadj
    rw [List.all_cons, Bool.and_eq_true] at hwf
    cases tok with
    | delim c =>
      have := ih hwf.2 (show noAdjWords t = true from hadj)
      constructor
      · show (Tok.delim c :: tokRw genes repl t).all wfTok = true
        rw [List.all_cons, Bool.and_eq_true]
        exact ⟨hwf.1, this.1⟩
      · show noAdjWords (Tok.delim c :: tokRw genes repl t) = true
        show noAdjWords (tokRw genes repl t) = true
        exact this.2
    | word w =>
      have hadj' : headNotWord t = true ∧ noAdjWords t = true := by
        rw [show noAdjWords (Tok.word w :: t) = (headNotWord t && noAdjWords t) from rfl,
          Bool.and_eq_true] at hadj
        exact hadj
      have := ih hwf.2 hadj'.2
      have hhd : wfTok (if genes.contains w && nextOkTok t then Tok.word repl
          else Tok.word w) = true := by
        by_cases hc : (genes.contains w && nextOkTok t) = true
        · rw [if_pos hc]
          show (!repl.isEmpty && repl.all isWordChar) = true
          rw [Bool.and_eq_true, hrw]
          refine ⟨?_, rfl⟩
          cases repl with
          | nil => exact absurd rfl hrne
          | cons x xs => rfl
        · rw [if_neg hc]
          exact hwf.1
      constructor
      · show ((if genes.contains w && nextOkTok t then Tok.word repl else Tok.word w)
          :: tokRw genes repl t).all wfTok = true
        rw [List.all_cons, Bool.and_eq_true]
        exact ⟨hhd, this.1⟩
      · show noAdjWords ((if genes.contains w && nextOkTok t then Tok.word repl
          else Tok.word w) :: tokRw genes repl t) = true
        by_cases hc : (genes.contains w && nextOkTok t) = true
        · rw [if_pos hc]
          show (headNotWord (tokRw genes repl t) && noAdjWords (tokRw genes repl t)) = true
          rw [headNotWord_tokRw, hadj'.1, this.2]
          rfl
        · rw [if_neg hc]
          show (headNotWord (tokRw genes repl t) && noAdjWords (tokRw genes repl t)) = true
          rw [headNotWord_tokRw, hadj'.1, this.2]
          rfl

/-- Token-level commutation of two passes whose gene sets are disjoint and
whose replacements are not genes of the other pass. -/
theorem tokRw_comm (g1 g2 : List (List Char)) (r1 r2 : List Char)
    (hdisj : ∀ w, g1.contains w = true → g2.contains w = false)
    (hr1 : g2.contains r1 = false) (hr2 : g1.contains r2 = false) :
    ∀ ts, tokRw g2 r2 (tokRw g1 r1 ts) = tokRw g1 r1 (tokRw g2 r2 ts) := by
  intro ts
  induction ts with
  | nil => rfl
  | cons tok t ih =>
    cases tok with
    | delim c =>
      show Tok.delim c :: tokRw g2 r2 (tokRw g1 r1 t)
        = Tok.delim c :: tokRw g1 r1 (tokRw g2 r2 t)
      rw [ih]
    | word w =>
      show tokRw g2 r2 ((if g1.contains w && nextOkTok t then Tok.word r1 else Tok.word w)
          :: tokRw g1 r1 t)
        = tokRw g1 r1 ((if g2.contains w && nextOkTok t then Tok.word r2 else Tok.word w)
          :: tokRw g2 r2 t)
      by_cases hc1 : (g1.contains w && nextOkTok t) = true
      · have hc1' := hc1
        rw [Bool.and_eq_true] at hc1'
        have hw2 : g2.contains w = false := hdisj w hc1'.1
        rw [if_pos hc1, if_neg (by rw [hw2, Bool.false_and]; exact Bool.false_ne_true)]
        show (if g2.contains r1 && nextOkTok (tokRw g1 r1 t) then Tok.word r2
            else Tok.word r1) :: tokRw g2 r2 (tokRw g1 r1 t)
          = (if g1.contains w && nextOkTok (tokRw g2 r2 t) then Tok.word r1
            else Tok.word w) :: tokRw g1 r1 (tokRw g2 r2 t)
        rw [hr1, Bool.false_and, if_neg Bool.false_ne_true,
          nextOkTok_tokRw g2 r2 t, ih, if_pos hc1]
      · rw [if_neg hc1]
        by_cases hc2 : (g2.contains w && nextOkTok t) = true
        · rw [if_pos hc2]
          show (if g2.contains w && nextOkTok (tokRw g1 r1 t) then Tok.word r2
              else Tok.word w) :: tokRw g2 r2 (tokRw g1 r1 t)
            = (if g1.contains r2 && nextOkTok (tokRw g2 r2 t) then Tok.word r1
              else Tok.word r2) :: tokRw g1 r1 (tokRw g2 r2 t)
          rw [hr2, Bool.false_and, if_neg Bool.false_ne_true,
            nextOkTok_tokRw g1 r1 t, ih, if_pos hc2]
        · rw [if_neg hc2]
          show (if g2.contains w && nextOkTok (tokRw g1 r1 t) then Tok.word r2
              else Tok.word w) :: tokRw g2 r2 (tokRw g1 r1 t)
            = (if g1.contains w && nextOkTok (tokRw g2 r2 t) then Tok.word r1
              else Tok.word w) :: tokRw g1 r1 (tokRw g2 r2 t)
          rw [nextOkTok_tokRw g1 r1 t, nextOkTok_tokRw g2 r2 t, ih,
            if_neg hc2, if_neg hc1]

/-! ### Structure of `species_to_genes_map` and pass-level commutation -/

theorem s2g_foldl_invariant2 (Q : String → Prop) :
    ∀ (l : List (String × String)) (acc : List (String × List String)),
      (∀ p ∈ acc, p.2 ≠ [] ∧ Q p.1) → (∀ q ∈ l, Q q.2) →
      ∀ p ∈ l.foldl s2gStep acc, p.2 ≠ [] ∧ Q p.1 := by
  intro l
  induction l with
  | nil => intro acc hacc _ p hp; exact hacc p hp
  | cons q t ih =>
    intro acc hacc hl p hp
    refine ih (s2gStep acc q) ?_ (fun r hr => hl r (List.mem_cons_of_mem _ hr)) p hp
    intro r hr
    unfold s2gStep at hr
    by_cases hc : acc.any (fun t => t.1 == q.2)
    · rw [if_pos hc] at hr
      obtain ⟨u, hu, rfl⟩ := List.mem_map.mp hr
      by_cases he : u.1 == q.2
      · rw [if_pos he]
        refine ⟨?_, (hacc u hu).2⟩
        intro hnil
        exact (hacc u hu).1 (List.append_eq_nil.mp hnil).1
      · rw [if_neg he]
        exact hacc u hu
    · rw [if_neg hc] at hr
      rcases List.mem_append.mp hr with hr1 | hr2
      · exact hacc r hr1
      · have : r = (q.2, [q.1]) := by simpa using hr2
        subst this
        exact ⟨by simp, hl q (List.mem_cons_self q t)⟩

theorem buildS2G_species (m : List (String × String)) :
    ∀ p ∈ buildS2G m, p.2 ≠ [] ∧ p.1 ∈ m.map Prod.snd :=
  s2g_foldl_invariant2 (fun s => s ∈ m.map Prod.snd) m [] (by simp)
    (fun q hq => List.mem_map.mpr ⟨q, hq, rfl⟩)

theorem s2gStep_keys (acc : List (String × List String)) (p : String × String) :
    ((s2gStep acc p).map Prod.fst).Nodup ↔
      ((if acc.any (fun q => q.1 == p.2) then acc.map Prod.fst
        else acc.map Prod.fst ++ [p.2]).Nodup) := by
  unfold s2gStep
  by_cases hc : acc.any (fun q => q.1 == p.2)
  · rw [if_pos hc, if_pos hc]
    have : (acc.map (fun q => if q.1 == p.2 then (q.1, q.2 ++ [p.1]) else q)).map Prod.fst
        = acc.map Prod.fst := by
      rw [List.map_map]
      apply List.map_congr_left
      intro q _
      by_cases he : q.1 == p.2
      · simp only [Function.comp_apply, if_pos he]
      · simp only [Function.comp_apply, if_neg he]
    rw [this]
  · rw [if_neg hc, if_neg hc, List.map_append]
    rfl

theorem buildS2G_keys_nodup (m : List (String × String)) :
    ((buildS2G m).map Prod.fst).Nodup := by
  suffices h : ∀ (l : List (String × String)) (acc : List (String × List String)),
      (acc.map Prod.fst).Nodup → ((l.foldl s2gStep acc).map Prod.fst).Nodup by
    exact h m [] (by simp)
  intro l
  induction l with
  | nil => intro acc hacc; exact hacc
  | cons q t ih =>
    intro acc hacc
    apply ih
    rw [s2gStep_keys]
    by_cases hc : acc.any (fun r => r.1 == q.2)
    · rw [if_pos hc]
      exact hacc
    · rw [if_neg hc]
      apply List.Nodup.append hacc (List.nodup_singleton q.2)
      intro a ha hb
      have : a = q.2 := by simpa using hb
      subst this
      obtain ⟨r, hr, hr1⟩ := List.mem_map.mp ha
      have : acc.any (fun r => r.1 == q.2) = true :=
        List.any_eq_true.mpr ⟨r, hr, by rw [hr1]; exact beq_self_eq_true q.2⟩
      exact hc this

theorem nodup_keys_elem_eq {α β : Type} (l : List (α × β)) (x y : α × β)
    (hn : (l.map Prod.fst).Nodup) (hx : x ∈ l) (hy : y ∈ l) (h1 : x.1 = y.1) :
    x = y := by
  induction l with
  | nil => cases hx
  | cons a t ih =>
    rw [List.map_cons, List.nodup_cons] at hn
    rcases List.mem_cons.mp hx with rfl | hx'
    · rcases List.mem_cons.mp hy with rfl | hy'
      · rfl
      · exact absurd (h1 ▸ List.mem_map.mpr ⟨y, hy', rfl⟩) hn.1
    · rcases List.mem_cons.mp hy with rfl | hy'
      · exact absurd (h1 ▸ List.mem_map.mpr ⟨x, hx', rfl⟩) hn.1
      · exact ih hn.2 hx' hy'

theorem keys_nodup_functional (m : List (String × String))
    (hn : (m.map Prod.fst).Nodup) (g s1 s2 : String)
    (h1 : (g, s1) ∈ m) (h2 : (g, s2) ∈ m) : s1 = s2 :=
  congrArg Prod.snd (nodup_keys_elem_eq m (g, s1) (g, s2) hn h1 h2 rfl)

/-- Two bootstrap passes commute whenever their gene sets are disjoint and
neither species name is a gene of the other pass (all names nonempty,
word characters only). -/
theorem applyPass_boot_comm (z : String) (sp1 sp2 : String) (gl1 gl2 : List String)
    (h1 : ∀ g ∈ gl1, g.data ≠ [] ∧ g.data.all isWordChar = true)
    (h2 : ∀ g ∈ gl2, g.data ≠ [] ∧ g.data.all isWordChar = true)
    (hs1 : sp1.data ≠ [] ∧ sp1.data.all isWordChar = true)
    (hs2 : sp2.data ≠ [] ∧ sp2.data.all isWordChar = true)
    (hdisjg : ∀ g ∈ gl1, g ∉ gl2)
    (hsp1 : sp1 ∉ gl2) (hsp2 : sp2 ∉ gl1) :
    applyPass true (applyPass true z sp1 gl1) sp2 gl2
      = applyPass true (applyPass true z sp2 gl2) sp1 gl1 := by
  rw [applyPass_boot_eq z sp1 gl1 h1, applyPass_boot_eq z sp2 gl2 h2,
    applyPass_boot_eq _ sp2 gl2 h2, applyPass_boot_eq _ sp1 gl1 h1]
  have hT := tokenize_wf z.data
  have hwf1 := tokRw_wf (gl1.map String.data) sp1.data hs1.1 hs1.2 (tokenize z.data)
    hT.1 hT.2
  have hwf2 := tokRw_wf (gl2.map String.data) sp2.data hs2.1 hs2.2 (tokenize z.data)
    hT.1 hT.2
  show (⟨detok (tokRw (gl2.map String.data) sp2.data (tokenize
      (detok (tokRw (gl1.map String.data) sp1.data (tokenize z.data)))))⟩ : String) = _
  rw [tokenize_detok _ hwf1.1 hwf1.2]
  show _ = (⟨detok (tokRw (gl1.map String.data) sp1.data (tokenize
      (detok (tokRw (gl2.map String.data) sp2.data (tokenize z.data)))))⟩ : String)
  rw [tokenize_detok _ hwf2.1 hwf2.2]
  have hdisj : ∀ w, (gl1.map String.data).contains w = true →
      (gl2.map String.data).contains w = false := by
    intro w hw
    obtain ⟨g, hg, rfl⟩ := List.mem_map.mp ((contains_iff_mem _ _).mp hw)
    exact contains_data_false gl2 g (hdisjg g hg)
  exact congrArg (fun l => (⟨detok l⟩ : String))
    (tokRw_comm (gl1.map String.data) (gl2.map String.data) sp1.data sp2.data hdisj
      (contains_data_false gl2 sp1 hsp1) (contains_data_false gl1 sp2 hsp2)
      (tokenize z.data))

/-- C1 (amended): in BOOTSTRAP mode the rewrite is independent of the species
iteration order provided all gene names and species names are nonempty
word-character strings and no species name of the table is also a gene name:
running the species passes in any permutation yields the output of
`process_tree_content` in BOOTSTRAP mode. -/
theorem c1_boot_order_independent (m : List (String × String)) (text : String)
    (hnodup : (m.map Prod.fst).Nodup)
    (hkeys : ∀ k ∈ m.map Prod.fst, k.data ≠ [] ∧ k.data.all isWordChar = true)
    (hsp : ∀ s ∈ m.map Prod.snd, s.data ≠ [] ∧ s.data.all isWordChar = true)
    (hnocollide : ∀ s ∈ m.map Prod.snd, s ∉ m.map Prod.fst) :
    ∀ passes, passes.Perm (buildS2G m) →
      runPasses true passes text = process_tree_content text m true := by
  intro passes hperm
  have heq : passes.foldl
        (fun c p => if p.2.isEmpty then c else applyPass true c p.1 p.2) text
      = (buildS2G m).foldl
        (fun c p => if p.2.isEmpty then c else applyPass true c p.1 p.2) text := by
    apply List.Perm.foldl_eq' hperm
    intro x hx y hy z
    have hx' : x ∈ buildS2G m := hperm.mem_iff.mp hx
    have hy' : y ∈ buildS2G m := hperm.mem_iff.mp hy
    by_cases hxy : x = y
    · rw [hxy]
    · by_cases hxe : x.2.isEmpty
      · by_cases hye : y.2.isEmpty
        · simp only [if_pos hxe, if_pos hye]
        · simp only [if_pos hxe, if_neg hye]
      · by_cases hye : y.2.isEmpty
        · simp only [if_neg hxe, if_pos hye]
        · simp only [if_neg hxe, if_neg hye]
          have hxkey : x.1 ≠ y.1 := by
            intro hk
            exact hxy (nodup_keys_elem_eq (buildS2G m) x y (buildS2G_keys_nodup m)
              hx' hy' hk)
          have hgx := buildS2G_genes_wf m hkeys x hx'
          have hgy := buildS2G_genes_wf m hkeys y hy'
          have hspx := hsp x.1 (buildS2G_species m x hx').2
          have hspy := hsp y.1 (buildS2G_species m y hy').2
          have hdisjg : ∀ g ∈ x.2, g ∉ y.2 := by
            intro g hg hg'
            exact hxkey (keys_nodup_functional m hnodup g x.1 y.1
              (buildS2G_genes_mem m x hx' g hg) (buildS2G_genes_mem m y hy' g hg'))
          have hsxy : x.1 ∉ y.2 := by
            intro hmem
            exact hnocollide x.1 (buildS2G_species m x hx').2
              (List.mem_map.mpr ⟨(x.1, y.1), buildS2G_genes_mem m y hy' x.1 hmem, rfl⟩)
          have hsyx : y.1 ∉ x.2 := by
            intro hmem
            exact hnocollide y.1 (buildS2G_species m y hy').2
              (List.mem_map.mpr ⟨(y.1, x.1), buildS2G_genes_mem m x hx' y.1 hmem, rfl⟩)
          exact applyPass_boot_comm z x.1 y.1 x.2 y.2 hgx hgy hspx hspy hdisjg hsxy hsyx
  refine Eq.trans heq ?_
  unfold process_tree_content
  by_cases hme : m.isEmpty
  · rw [if_pos hme]
    cases m with
    | nil => rfl
    | cons a t => simp at hme
  · rw [if_neg hme]
    rfl

/-- C1 (amended) witness: the table `{"g1" -> "SpA", "g2" -> "SpB"}` on
`"g1,g2"`, with the two species passes run in swapped order. -/
theorem c1_boot_order_independent_witness :
    runPasses true [("SpB", ["g2"]), ("SpA", ["g1"])] "g1,g2"
      = process_tree_content "g1,g2" [("g1", "SpA"), ("g2", "SpB")] true :=
  c1_boot_order_independent [("g1", "SpA"), ("g2", "SpB")] "g1,g2" (by decide) (by decide)
    (by decide) (by decide) [("SpB", ["g2"]), ("SpA", ["g1"])] (by decide)

/-! ### Dictionary semantics of `parse_mapping_file` -/

theorem find?_map_keyNe (t : List (String × String)) (k v g : String) (hg : g ≠ k) :
    (t.map (fun p => if p.1 == k then (k, v) else p)).find? (fun p => p.1 == g)
      = t.find? (fun p => p.1 == g) := by
  induction t with
  | nil => rfl
  | cons q r ih =>
    rw [List.map_cons, List.find?_cons, List.find?_cons]
    by_cases hqk : (q.1 == k) = true
    · rw [if_pos hqk]
      have h1 : ((k, v).1 == g) = false := beq_eq_false_iff_ne.mpr (fun h => hg h.symm)
      have h2 : (q.1 == g) = false := by
        rw [eq_of_beq hqk]
        exact beq_eq_false_iff_ne.mpr (fun h => hg h.symm)
      rw [h1, h2]
      exact ih
    · rw [if_neg hqk]
      cases hqg : (q.1 == g) with
      | true => rfl
      | false => exact ih

theorem find?_map_keyEq (t : List (String × String)) (k v : String)
    (hc : (t.find? (fun p => p.1 == k)).isSome = true) :
    (t.map (fun p => if p.1 == k then (k, v) else p)).find? (fun p => p.1 == k)
      = some (k, v) := by
  induction t with
  | nil => simp at hc
  | cons q r ih =>
    rw [List.map_cons, List.find?_cons]
    by_cases hqk : (q.1 == k) = true
    · rw [if_pos hqk]
      have h1 : ((k, v).1 == k) = true := beq_self_eq_true k
      rw [h1]
    · rw [if_neg hqk]
      rw [List.find?_cons] at hc
      have hqk' : (q.1 == k) = false := by
        cases h : (q.1 == k)
        · rfl
        · exact absurd h hqk
      rw [hqk'] at hc
      rw [show ((q.1 == k) : Bool) = false from hqk']
      exact ih hc

theorem dictFind_dictInsert (d : List (String × String)) (k v g : String) :
    dictFind (dictInsert d k v) g = if g = k then some v else dictFind d g := by
  unfold dictInsert dictFind
  by_cases hc : (d.find? (fun p => p.1 == k)).isSome = true
  · rw [if_pos hc]
    by_cases hg : g = k
    · subst hg
      rw [if_pos rfl, find?_map_keyEq d g v hc]
      rfl
    · rw [if_neg hg, find?_map_keyNe d k v g hg]
  · rw [if_neg hc, List.find?_append]
    by_cases hg : g = k
    · subst hg
      rw [if_pos rfl]
      have hnone : d.find? (fun p => p.1 == g) = none :=
        Option.not_isSome_iff_eq_none.mp hc
      rw [hnone]
      show ([(g, v)].find? (fun p => p.1 == g)).map Prod.snd = some v
      rw [List.find?_cons, show ((g, v).1 == g) = true from beq_self_eq_true g]
      rfl
    · rw [if_neg hg]
      have hone : [(k, v)].find? (fun p => p.1 == g) = none := by
        rw [List.find?_cons,
          show ((k, v).1 == g) = false from beq_eq_false_iff_ne.mpr (fun h => hg h.symm)]
        rfl
      rw [hone]
      cases d.find? (fun p => p.1 == g) <;> rfl

theorem dictInsert_keys_nodup (d : List (String × String)) (k v : String)
    (h : (d.map Prod.fst).Nodup) : ((dictInsert d k v).map Prod.fst).Nodup := by
  unfold dictInsert
  by_cases hc : (d.find? (fun p => p.1 == k)).isSome = true
  · rw [if_pos hc]
    have heq : (d.map (fun p => if p.1 == k then (k, v) else p)).map Prod.fst
        = d.map Prod.fst := by
      rw [List.map_map]
      apply List.map_congr_left
      intro p _
      by_cases hp : (p.1 == k) = true
      · show Prod.fst (if p.1 == k then (k, v) else p) = p.1
        rw [if_pos hp]
        exact (eq_of_beq hp).symm
      · show Prod.fst (if p.1 == k then (k, v) else p) = p.1
        rw [if_neg hp]
    rw [heq]
    exact h
  · rw [if_neg hc, List.map_append]
    apply List.Nodup.append h (List.nodup_singleton k)
    intro a ha hb
    have hak : a = k := by simpa using hb
    subst hak
    obtain ⟨p, hp, hp1⟩ := List.mem_map.mp ha
    apply hc
    exact List.find?_isSome.mpr ⟨p, hp, by rw [hp1]; exact beq_self_eq_true a⟩

/-- Replaying assignments on a dict: the final binding of `g` is the species
of the last assignment to `g`, if any. -/
theorem dictFind_foldl_assign :
    ∀ (asg : List (Nat × String × String)) (d : List (String × String)) (g : String),
      dictFind (asg.foldl (fun d a => dictInsert d a.2.1 a.2.2) d) g
        = match (asg.filter (fun a => a.2.1 == g)).getLast? with
          | some a => some a.2.2
          | none => dictFind d g := by
  intro asg
  induction asg with
  | nil => intro d g; rfl
  | cons a t ih =>
    intro d g
    rw [List.foldl_cons, ih (dictInsert d a.2.1 a.2.2) g, List.filter_cons]
    by_cases hag : (a.2.1 == g) = true
    · rw [if_pos hag]
      cases hlast : (t.filter (fun a => a.2.1 == g)).getLast? with
      | some b =>
        rw [List.getLast?_cons, hlast]
        rfl
      | none =>
        rw [List.getLast?_cons, hlast]
        show dictFind (dictInsert d a.2.1 a.2.2) g = some a.2.2
        rw [dictFind_dictInsert, if_pos (eq_of_beq hag).symm]
    · rw [if_neg hag]
      cases hlast : (t.filter (fun a => a.2.1 == g)).getLast? with
      | some b => rfl
      | none =>
        show dictFind (dictInsert d a.2.1 a.2.2) g = dictFind d g
        rw [dictFind_dictInsert,
          if_neg (fun h => absurd (beq_eq_false_iff_ne.mp (Bool.eq_false_iff.mpr hag) :
            a.2.1 ≠ g) (fun hne => hne h.symm))]

theorem foldl_assign_keys_nodup (asg : List (Nat × String × String)) :
    ∀ (d : List (String × String)), (d.map Prod.fst).Nodup →
      (((asg.foldl (fun d a => dictInsert d a.2.1 a.2.2) d)).map Prod.fst).Nodup := by
  induction asg with
  | nil => intro d h; exact h
  | cons a t ih =>
    intro d h
    rw [List.foldl_cons]
    exact ih _ (dictInsert_keys_nodup d a.2.1 a.2.2 h)

/-- One accepted line's gene loop is the assignment replay on the
(dict, duplicate warnings) components; `imm` is untouched. -/
theorem processGene_foldl_eq (n : Nat) (sp : String) :
    ∀ (genes : List String) (st : ParseState),
      ((genes.foldl (processGene n sp) st).map, (genes.foldl (processGene n sp) st).dups)
        = replayMD (st.map, st.dups) (genes.map (fun g => (n, g, sp)))
      ∧ (genes.foldl (processGene n sp) st).imm = st.imm := by
  intro genes
  induction genes with
  | nil => intro st; exact ⟨rfl, rfl⟩
  | cons g gs ih =>
    intro st
    rw [List.foldl_cons, List.map_cons]
    have hstep : ((processGene n sp st g).map, (processGene n sp st g).dups)
        = mdStep (st.map, st.dups) (n, g, sp) := rfl
    have := ih (processGene n sp st g)
    refine ⟨?_, ?_⟩
    · rw [this.1, hstep]
      rfl
    · rw [this.2]
      rfl

theorem processLine_md_eq (st : ParseState) (ln : Nat × String) :
    ((processLine st ln).map, (processLine st ln).dups)
      = replayMD (st.map, st.dups) (lineAssignments ln) := by
  unfold processLine lineAssignments
  cases parseLine ln.2 with
  | skip => rfl
  | malformed => rfl
  | emptySpecies => rfl
  | entry sp genes => exact (processGene_foldl_eq ln.1 sp genes st).1

theorem parse_fold_md_eq :
    ∀ (ens : List (Nat × String)) (st : ParseState),
      ((ens.foldl processLine st).map, (ens.foldl processLine st).dups)
        = replayMD (st.map, st.dups) ((ens.map lineAssignments).flatten) := by
  intro ens
  induction ens with
  | nil => intro st; rfl
  | cons e t ih =>
    intro st
    rw [List.foldl_cons, List.map_cons, List.flatten_cons]
    show _ = replayMD (st.map, st.dups) (lineAssignments e ++ (t.map lineAssignments).flatten)
    unfold replayMD
    rw [List.foldl_append]
    have h1 := processLine_md_eq st e
    rw [ih (processLine st e), h1]
    rfl

theorem parse_md_eq (lines : List String) :
    ((parse_mapping_file lines).map, (parse_mapping_file lines).dups)
      = replayMD ([], []) (assignments lines) :=
  parse_fold_md_eq (enumFrom 1 lines) ⟨[], [], []⟩

theorem replayMD_fst :
    ∀ (asg : List (Nat × String × String)) (init : List (String × String) × List Warning),
      (replayMD init asg).1 = asg.foldl (fun d a => dictInsert d a.2.1 a.2.2) init.1 := by
  intro asg
  induction asg with
  | nil => intro init; rfl
  | cons a t ih =>
    intro init
    show (replayMD (mdStep init a) t).1 = _
    rw [ih (mdStep init a), List.foldl_cons]
    rfl

theorem replayMD_snd_mono :
    ∀ (asg : List (Nat × String × String)) (init : List (String × String) × List Warning)
      (w : Warning), w ∈ init.2 → w ∈ (replayMD init asg).2 := by
  intro asg
  induction asg with
  | nil => intro init w h; exact h
  | cons a t ih =>
    intro init w h
    show w ∈ (replayMD (mdStep init a) t).2
    apply ih
    show w ∈ (mdStep init a).2
    unfold mdStep
    cases dictFind init.1 a.2.1 with
    | none => exact h
    | some prev =>
      by_cases hp : prev ≠ a.2.2
      · show w ∈ (if prev ≠ a.2.2 then init.2 ++ [_] else init.2)
        rw [if_pos hp]
        exact List.mem_append_left _ h
      · show w ∈ (if prev ≠ a.2.2 then init.2 ++ [_] else init.2)
        rw [if_neg hp]
        exact h

theorem replayMD_dup_mem (pre : List (Nat × String × String)) (a : Nat × String × String)
    (post : List (Nat × String × String)) (p : String)
    (hfind : dictFind (mapOfAssignments pre) a.2.1 = some p) (hne : p ≠ a.2.2) :
    Warning.duplicateGeneMapping a.2.1 p a.2.2 a.1
      ∈ (replayMD ([], []) (pre ++ a :: post)).2 := by
  unfold replayMD
  rw [List.foldl_append, List.foldl_cons]
  show Warning.duplicateGeneMapping a.2.1 p a.2.2 a.1
    ∈ (replayMD (mdStep (replayMD ([], []) pre) a) post).2
  apply replayMD_snd_mono
  show _ ∈ (mdStep (replayMD ([], []) pre) a).2
  unfold mdStep
  have hfst : (replayMD ([], []) pre).1 = mapOfAssignments pre := replayMD_fst pre ([], [])
  rw [hfst, hfind]
  show _ ∈ (if p ≠ a.2.2 then _ ++ [Warning.duplicateGeneMapping a.2.1 p a.2.2 a.1] else _)
  rw [if_pos hne]
  exact List.mem_append_right _ (List.mem_singleton.mpr rfl)

/-- C2: for every mapping file (as its list of lines), every gene name is a
key of the resulting dict at most once; each gene is bound to the species of
its LAST assignment in file order; and a later assignment of an
already-mapped gene to a different species emits a `DuplicateGeneMapping`
warning carrying the gene, the previous species, the new species, and the
line number.  (The parse model is a total function: mapping-content problems
are never fatal.) -/
theorem c2_last_wins (lines : List String) :
    (((parse_mapping_file lines).map.map Prod.fst).Nodup)
    ∧ (∀ g : String, dictFind (parse_mapping_file lines).map g
        = (((assignments lines).filter (fun a => a.2.1 == g)).getLast?).map
            (fun a => a.2.2))
    ∧ (∀ pre a post, assignments lines = pre ++ a :: post →
        ∀ p, dictFind (mapOfAssignments pre) a.2.1 = some p → p ≠ a.2.2 →
          Warning.duplicateGeneMapping a.2.1 p a.2.2 a.1 ∈ emittedWarnings lines) := by
  have hmap : (parse_mapping_file lines).map
      = (replayMD ([], []) (assignments lines)).1 :=
    congrArg Prod.fst (parse_md_eq lines)
  have hdups : (parse_mapping_file lines).dups
      = (replayMD ([], []) (assignments lines)).2 :=
    congrArg Prod.snd (parse_md_eq lines)
  refine ⟨?_, ?_, ?_⟩
  · rw [hmap, replayMD_fst]
    exact foldl_assign_keys_nodup (assignments lines) [] (by simp)
  · intro g
    rw [hmap, replayMD_fst]
    rw [dictFind_foldl_assign (assignments lines) [] g]
    cases (List.filter (fun a => a.2.1 == g) (assignments lines)).getLast? with
    | some b => rfl
    | none => rfl
  · intro pre a post hsplit p hfind hne
    show _ ∈ (parse_mapping_file lines).imm ++ (parse_mapping_file lines).dups
    apply List.mem_append_right
    rw [hdups, hsplit]
    exact replayMD_dup_mem pre a post p hfind hne

/-- C2 witness: from the file `["S1:g", "S2:g"]`, gene `g` is bound to `S2`
(the later line) and the duplicate warning for line 2 names `g`, `S1`, `S2`. -/
theorem c2_last_wins_witness :
    dictFind (parse_mapping_file ["S1:g", "S2:g"]).map "g" = some "S2"
    ∧ Warning.duplicateGeneMapping "g" "S1" "S2" 2 ∈ emittedWarnings ["S1:g", "S2:g"] :=
  ⟨by rw [(c2_last_wins ["S1:g", "S2:g"]).2.1 "g"]; rfl,
    (c2_last_wins ["S1:g", "S2:g"]).2.2 [(1, "g", "S1")] (2, "g", "S2") [] (by rfl) "S1"
      (by rfl) (by decide)⟩

/-! ### Order of the emitted warnings -/

theorem pairwise_append_le (ws : List Warning) (w : Warning) (n : Nat)
    (h1 : List.Pairwise (fun a b => a.lineOf ≤ b.lineOf) ws)
    (h2 : ∀ x ∈ ws, x.lineOf ≤ n) (hw : w.lineOf = n) :
    List.Pairwise (fun a b => a.lineOf ≤ b.lineOf) (ws ++ [w])
    ∧ ∀ x ∈ ws ++ [w], x.lineOf ≤ n := by
  constructor
  · rw [List.pairwise_append]
    refine ⟨h1, List.pairwise_singleton _ _, ?_⟩
    intro a ha b hb
    rw [List.mem_singleton.mp hb, hw]
    exact h2 a ha
  · intro x hx
    rcases List.mem_append.mp hx with h | h
    · exact h2 x h
    · rw [List.mem_singleton.mp h, hw]

theorem processGene_dups_cases (n : Nat) (sp : String) (st : ParseState) (g : String) :
    (processGene n sp st g).dups = st.dups
    ∨ ∃ prev, (processGene n sp st g).dups
        = st.dups ++ [Warning.duplicateGeneMapping g prev sp n] := by
  unfold processGene
  cases hd : dictFind st.map g with
  | none => exact Or.inl rfl
  | some prev =>
    by_cases hp : prev ≠ sp
    · refine Or.inr ⟨prev, ?_⟩
      show (if prev ≠ sp then st.dups ++ [_] else st.dups) = _
      rw [if_pos hp]
    · refine Or.inl ?_
      show (if prev ≠ sp then st.dups ++ [_] else st.dups) = _
      rw [if_neg hp]

theorem processGene_fold_ordered (n : Nat) (sp : String) :
    ∀ (genes : List String) (st : ParseState),
      List.Pairwise (fun a b => a.lineOf ≤ b.lineOf) st.dups →
      (∀ w ∈ st.dups, w.lineOf ≤ n) →
      List.Pairwise (fun a b => a.lineOf ≤ b.lineOf)
        (genes.foldl (processGene n sp) st).dups
      ∧ (∀ w ∈ (genes.foldl (processGene n sp) st).dups, w.lineOf ≤ n)
      ∧ (genes.foldl (processGene n sp) st).imm = st.imm := by
  intro genes
  induction genes with
  | nil => intro st h1 h2; exact ⟨h1, h2, rfl⟩
  | cons g gs ih =>
    intro st h1 h2
    rw [List.foldl_cons]
    have hstep : List.Pairwise (fun a b => a.lineOf ≤ b.lineOf)
        (processGene n sp st g).dups
        ∧ ∀ w ∈ (processGene n sp st g).dups, w.lineOf ≤ n := by
      rcases processGene_dups_cases n sp st g with h | ⟨prev, h⟩
      · rw [h]
        exact ⟨h1, h2⟩
      · rw [h]
        exact pairwise_append_le st.dups _ n h1 h2 rfl
    have := ih (processGene n sp st g) hstep.1 hstep.2
    exact ⟨this.1, this.2.1, this.2.2⟩

theorem processLine_ordered (st : ParseState) (n : Nat) (s : String)
    (h1 : List.Pairwise (fun a b => a.lineOf ≤ b.lineOf) st.imm)
    (h2 : List.Pairwise (fun a b => a.lineOf ≤ b.lineOf) st.dups)
    (h3 : ∀ w ∈ st.imm, w.lineOf ≤ n) (h4 : ∀ w ∈ st.dups, w.lineOf ≤ n) :
    List.Pairwise (fun a b => a.lineOf ≤ b.lineOf) (processLine st (n, s)).imm
    ∧ List.Pairwise (fun a b => a.lineOf ≤ b.lineOf) (processLine st (n, s)).dups
    ∧ (∀ w ∈ (processLine st (n, s)).imm, w.lineOf ≤ n)
    ∧ (∀ w ∈ (processLine st (n, s)).dups, w.lineOf ≤ n) := by
  unfold processLine
  cases parseLine (n, s).2 with
  | skip => exact ⟨h1, h2, h3, h4⟩
  | malformed =>
    have := pairwise_append_le st.imm (Warning.malformedLine n (pyStrip s)) n h1 h3 rfl
    exact ⟨this.1, h2, this.2, h4⟩
  | emptySpecies =>
    have := pairwise_append_le st.imm (Warning.emptySpeciesName n (pyStrip s)) n h1 h3 rfl
    exact ⟨this.1, h2, this.2, h4⟩
  | entry sp genes =>
    have := processGene_fold_ordered n sp genes st h2 h4
    rw [this.2.2]
    exact ⟨h1, this.1, h3, this.2.1⟩

theorem parse_fold_ordered :
    ∀ (lines : List String) (n : Nat) (st : ParseState),
      List.Pairwise (fun a b => a.lineOf ≤ b.lineOf) st.imm →
      List.Pairwise (fun a b => a.lineOf ≤ b.lineOf) st.dups →
      (∀ w ∈ st.imm, w.lineOf ≤ n) → (∀ w ∈ st.dups, w.lineOf ≤ n) →
      List.Pairwise (fun a b => a.lineOf ≤ b.lineOf)
        ((enumFrom (n + 1) lines).foldl processLine st).imm
      ∧ List.Pairwise (fun a b => a.lineOf ≤ b.lineOf)
        ((enumFrom (n + 1) lines).foldl processLine st).dups := by
  intro lines
  induction lines with
  | nil => intro n st h1 h2 _ _; exact ⟨h1, h2⟩
  | cons l t ih =>
    intro n st h1 h2 h3 h4
    show (((n + 1, l) :: enumFrom (n + 2) t).foldl processLine st).imm.Pairwise _
      ∧ (((n + 1, l) :: enumFrom (n + 2) t).foldl processLine st).dups.Pairwise _
    rw [List.foldl_cons]
    have hline := processLine_ordered st (n + 1) l h1 h2
      (fun w hw => Nat.le_succ_of_le (h3 w hw)) (fun w hw => Nat.le_succ_of_le (h4 w hw))
    exact ih (n + 1) (processLine st (n + 1, l)) hline.1 hline.2.1 hline.2.2.1 hline.2.2.2

/-- C9 (amended): the emitted warning sequence consists of the immediately
printed warnings (malformed line, empty species name), in line order, followed
by the collected duplicate-mapping warnings, themselves in line order; the
claimed global line order holds within each group but not across the two
groups. -/
theorem c9_warning_groups_ordered (lines : List String) :
    emittedWarnings lines
      = (parse_mapping_file lines).imm ++ (parse_mapping_file lines).dups
    ∧ List.Pairwise (fun a b => a.lineOf ≤ b.lineOf) (parse_mapping_file lines).imm
    ∧ List.Pairwise (fun a b => a.lineOf ≤ b.lineOf) (parse_mapping_file lines).dups := by
  have := parse_fold_ordered lines 0 ⟨[], [], []⟩ (by simp) (by simp) (by simp) (by simp)
  exact ⟨rfl, this.1, this.2⟩

/-- C8 witness: the theorem applied to a concrete run with one existing
auxiliary file. -/
theorem c8_primary_failure_fatal_witness :
    coordinatorTrace false [("b1.tre", true)] =
      [CoordEvent.primaryAttempt, CoordEvent.fatalExit 1]
    ∧ CoordEvent.auxAttempt "b1.tre" ∉ coordinatorTrace false [("b1.tre", true)] :=
  ⟨(c8_primary_failure_fatal [("b1.tre", true)]).1,
    (c8_primary_failure_fatal [("b1.tre", true)]).2.1 "b1.tre"⟩

end GeneTree
